import Mathlib

/-!
Verification development for the SEC financial QA retrieval core.

The definitions below are a shallow embedding of the Python sources
(`config/config.py`, `src/financial_taxonomy.py`, `src/preprocessing.py`,
`src/embedding_engine.py`).  Text is modelled as `String` / `List Char`,
machine floats as `ℚ` (all scores in the code are produced by exact
decimal-constant arithmetic), Python dicts with fixed insertion order as
association lists, and Python `None` as `Option`.  `list(set(xs))`, whose
iteration order is a hash artifact in Python, is modelled as `xs.dedup`
(first-occurrence order); every property proved below depends only on
membership in such lists.  The FAISS vector index is modelled abstractly
as a function from a requested candidate count to a list of
(similarity, position) pairs.
-/

namespace SecQA

/-- The apostrophe character (ASCII 39), used to build string constants of the
source that contain one. -/
def apos : Char := Char.ofNat 39

/-- String consisting of a single apostrophe. -/
def aposS : String := apos.toString

/-- ASCII lower-casing of one character, the behaviour of Python `str.lower`
on the ASCII strings this code base works with. -/
def asciiLower (c : Char) : Char :=
  if 65 ≤ c.toNat ∧ c.toNat ≤ 90 then Char.ofNat (c.toNat + 32) else c

/-- ASCII upper-casing of one character (Python `str.upper`). -/
def asciiUpper (c : Char) : Char :=
  if 97 ≤ c.toNat ∧ c.toNat ≤ 122 then Char.ofNat (c.toNat - 32) else c

/-- Python `s.lower()`. -/
def lowerS (s : String) : String := String.mk (s.data.map asciiLower)

/-- Python `s.upper()`. -/
def upperS (s : String) : String := String.mk (s.data.map asciiUpper)

/-- The ASCII whitespace characters matched by Python `\s` / `str.split()`:
space, tab, newline, vertical tab, form feed, carriage return. -/
def isPyWS (c : Char) : Bool :=
  c = Char.ofNat 32 || c = Char.ofNat 9 || c = Char.ofNat 10 ||
  c = Char.ofNat 11 || c = Char.ofNat 12 || c = Char.ofNat 13

/-- A regex word character (`\w` over ASCII input): letter, digit or underscore. -/
def isWordChar (c : Char) : Bool :=
  (65 ≤ c.toNat && c.toNat ≤ 90) || (97 ≤ c.toNat && c.toNat ≤ 122) ||
  (48 ≤ c.toNat && c.toNat ≤ 57) || c.toNat = 95

/-- An ASCII digit. -/
def isDigit (c : Char) : Bool := 48 ≤ c.toNat && c.toNat ≤ 57

/-- Whether `p` is a prefix of `l` (character lists). -/
def isPrefixCL : List Char → List Char → Bool
  | [], _ => true
  | _ :: _, [] => false
  | a :: asr, b :: bs => a = b && isPrefixCL asr bs

/-- Whether `needle` occurs as a contiguous sublist of `hay`. -/
def containsCL (needle : List Char) : List Char → Bool
  | [] => isPrefixCL needle []
  | c :: t => isPrefixCL needle (c :: t) || containsCL needle t

/-- Python's substring test `needle in hay`. -/
def strIn (needle hay : String) : Bool := containsCL needle.data hay.data

/-- Strip Python-`\s` whitespace from both ends of a character list
(Python `str.strip()`). -/
def trimWS (l : List Char) : List Char :=
  ((l.dropWhile isPyWS).reverse.dropWhile isPyWS).reverse

/-- Python `int` on a string of ASCII digits. -/
def natOfDigitsCL (l : List Char) : Nat :=
  l.foldl (fun a c => a * 10 + (c.toNat - 48)) 0

/-- Python `int` on a digit string. -/
def natOfDigits (s : String) : Nat := natOfDigitsCL s.data

/-- The decimal digit character for `d < 10`. -/
def digitCh (d : Nat) : Char := Char.ofNat (48 + d)

/-- Little-endian decimal digits of `n`; structural recursion on a fuel
argument (any fuel at least `n` is enough) so that the kernel can
evaluate it. -/
def digitsRev : Nat → Nat → List Nat
  | 0, _ => []
  | fuel + 1, n => if n = 0 then [] else n % 10 :: digitsRev fuel (n / 10)

/-- Decimal digit characters of `n`, most significant first: the decimal
rendering Python `str` gives an `int`. -/
def natDigits (n : Nat) : List Char :=
  if n = 0 then [digitCh 0] else ((digitsRev n n).map digitCh).reverse

/-- Python `str(n)` for a natural number. -/
def natRepr (n : Nat) : String := String.mk (natDigits n)

/-- Python `' '.join(words)`. -/
def joinSpace : List String → String
  | [] => ""
  | [w] => w
  | w :: ws => w ++ " " ++ joinSpace ws

/-- Python `str.split()` (split on whitespace runs, no empty tokens):
worker carrying the reversed current token. -/
def splitWSAux : List Char → List Char → List (List Char)
  | [], cur => if cur = [] then [] else [cur.reverse]
  | c :: t, cur =>
    if isPyWS c then
      (if cur = [] then splitWSAux t [] else cur.reverse :: splitWSAux t [])
    else splitWSAux t (c :: cur)

/-- Python `str.split()` on a character list. -/
def splitWS (l : List Char) : List (List Char) := splitWSAux l []

/-- Worker for `collapseWS`: `re.sub(r'\s+', ' ', ...)`, carrying whether the
previous character was whitespace. -/
def collapseWSAux : List Char → Bool → List Char
  | [], _ => []
  | c :: t, inWS =>
    if isPyWS c then
      (if inWS then collapseWSAux t true else Char.ofNat 32 :: collapseWSAux t true)
    else c :: collapseWSAux t false

/-- `re.sub(r'\s+', ' ', content).strip()` from `clean_and_chunk`. -/
def collapseWS (l : List Char) : List Char := trimWS (collapseWSAux l false)

/-- Attempt to match the tail of an HTML tag (`re.sub` pattern `<[^>]+>`)
right after an opening `<`: at least one non-`>` character followed by `>`.
Returns the rest of the input after the closing `>`; the flag records
whether an inner character has been seen. -/
def tagSpanAux : List Char → Bool → Option (List Char)
  | [], _ => none
  | c :: t, seen =>
    if c = Char.ofNat 62 then (if seen then some t else none)
    else tagSpanAux t true

/-- The span of `<[^>]+>` starting right after an opening `<`. -/
def tagSpan (t : List Char) : Option (List Char) := tagSpanAux t false

/-- Worker for `removeTags`, with a fuel argument so the recursion is
structural (the scan advances at least one character per step, so fuel
`l.length` is always enough; `tagSpan_length_lt` witnesses this). -/
def removeTagsAux : Nat → List Char → List Char
  | 0, l => l
  | fuel + 1, l =>
    match l with
    | [] => []
    | c :: t =>
      if c = Char.ofNat 60 then
        match tagSpan t with
        | some rest => removeTagsAux fuel rest
        | none => c :: removeTagsAux fuel t
      else c :: removeTagsAux fuel t

/-- `re.sub(r'<[^>]+>', '', content)` from `clean_and_chunk`. -/
def removeTags (l : List Char) : List Char := removeTagsAux l.length l

/-- `config/config.py` `COMPANIES`: ticker → CIK string, in source order.
Note the dictionary values are CIK numbers, not company display names. -/
def COMPANIES : List (String × String) :=
  [("AAPL", "320193"), ("MSFT", "789019"), ("NVDA", "1045810"),
   ("JPM", "19617"), ("TSLA", "1318605"), ("JNJ", "200406"),
   ("PFE", "78003"), ("WMT", "104169"), ("AMZN", "1018724"),
   ("XOM", "34088"), ("CAT", "18230")]

/-- One entry of `FinancialTaxonomy.taxonomy`. -/
structure ConceptInfo where
  keywords : List String
  secSections : List String
  filingTypes : List String
  xbrlTags : List String
deriving DecidableEq, Repr

/-- `"Item 7 - Management's Discussion"` (built around the apostrophe). -/
def mgmtDiscussionSec : String := "Item 7 - Management" ++ aposS ++ "s Discussion"

/-- `"Item 2 - Management's Discussion of Financial Condition"`. -/
def mgmtDiscussionCondSec : String :=
  "Item 2 - Management" ++ aposS ++ "s Discussion of Financial Condition"

/-- `FinancialTaxonomy.taxonomy` from `src/financial_taxonomy.py`,
as an association list in the source's (dict insertion) order. -/
def taxonomy : List (String × ConceptInfo) :=
  [("revenue_performance",
    { keywords := ["revenue", "sales", "income", "earnings", "profit", "performance",
        "top line", "net sales", "total revenue", "operating revenue", "growth", "decline"],
      secSections := ["Item 1 - Business", mgmtDiscussionSec,
        "Item 8 - Financial Statements", "Consolidated Statements of Operations"],
      filingTypes := ["10-K", "10-Q", "8-K"],
      xbrlTags := ["Revenues", "SalesRevenueNet"] }),
   ("risk_factors",
    { keywords := ["risk", "risks", "risk factors", "uncertainties", "challenges",
        "threats", "vulnerabilities", "material adverse", "cyber", "cybersecurity",
        "regulatory risk", "market risk"],
      secSections := ["Item 1A - Risk Factors",
        "Item 7A - Quantitative and Qualitative Disclosures About Market Risk"],
      filingTypes := ["10-K", "10-Q", "8-K"],
      xbrlTags := ["RiskFactors", "MarketRiskDisclosures"] }),
   ("research_development",
    { keywords := ["research and development", "r&d", "innovation", "technology",
        "patents", "intellectual property", "development costs", "research expenses",
        "innovation investment"],
      secSections := ["Item 1 - Business", mgmtDiscussionSec,
        "Item 8 - Financial Statements"],
      filingTypes := ["10-K", "10-Q"],
      xbrlTags := ["ResearchAndDevelopmentExpense"] }),
   ("working_capital",
    { keywords := ["working capital", "current assets", "current liabilities",
        "accounts receivable", "inventory", "accounts payable", "cash conversion",
        "liquidity"],
      secSections := [mgmtDiscussionSec, "Item 8 - Financial Statements",
        "Consolidated Balance Sheets"],
      filingTypes := ["10-K", "10-Q"],
      xbrlTags := ["WorkingCapital", "AssetsCurrent", "LiabilitiesCurrent"] }),
   ("executive_compensation",
    { keywords := ["executive compensation", "ceo pay", "executive pay",
        "compensation committee", "salary", "bonus", "stock options",
        "equity compensation"],
      secSections := ["Compensation Discussion and Analysis",
        "Executive Compensation Tables"],
      filingTypes := ["DEF 14A"],
      xbrlTags := ["CompensationCosts", "ShareBasedCompensation"] }),
   ("insider_trading",
    { keywords := ["insider trading", "insider transactions", "form 3", "form 4",
        "form 5", "beneficial ownership", "director transactions", "stock purchases",
        "stock sales"],
      secSections := ["Security Ownership of Certain Beneficial Owners"],
      filingTypes := ["3", "4", "5", "DEF 14A"],
      xbrlTags := ["SecurityOwned", "TransactionShares"] }),
   ("climate_esg",
    { keywords := ["climate", "climate change", "environmental", "sustainability",
        "esg", "carbon", "emissions", "renewable energy", "climate risk"],
      secSections := ["Item 1A - Risk Factors", "Item 1 - Business", mgmtDiscussionSec],
      filingTypes := ["10-K", "10-Q", "8-K"],
      xbrlTags := ["EnvironmentalCompliance"] }),
   ("mergers_acquisitions",
    { keywords := ["merger", "acquisition", "m&a", "business combination", "purchase",
        "divestiture", "joint venture", "strategic alliance"],
      secSections := [mgmtDiscussionCondSec, "Item 8 - Financial Statements",
        "Business Combinations"],
      filingTypes := ["8-K", "10-K", "10-Q"],
      xbrlTags := ["BusinessCombinations", "Goodwill"] }),
   ("competitive_advantage",
    { keywords := ["competitive advantage", "moat", "differentiation", "market position",
        "barriers to entry", "competitive strengths", "market leadership",
        "brand strength"],
      secSections := ["Item 1 - Business", "Item 1A - Risk Factors", mgmtDiscussionSec],
      filingTypes := ["10-K"],
      xbrlTags := ["BusinessDescription"] }),
   ("ai_automation",
    { keywords := ["artificial intelligence", "ai", "machine learning", "automation",
        "robotics", "digital transformation", "technology adoption", "algorithmic"],
      secSections := ["Item 1 - Business", "Item 1A - Risk Factors", mgmtDiscussionSec],
      filingTypes := ["10-K", "10-Q", "8-K"],
      xbrlTags := ["TechnologyInvestments"] })]

/-! ## Query interpreter (`FinancialTaxonomy.parse_query` and helpers) -/

/-- Whether the position right after a match satisfies `\b` given that the
last matched character is a word character: the next character must be
absent or not a word character. -/
def boundaryAfter (l : List Char) : Bool :=
  match l with
  | [] => true
  | c :: _ => !isWordChar c

/-- Try to match `\b(19|20)\d{2}\b` at the head of `l` (the caller checks the
left boundary); returns the text captured by the group `(19|20)`.  Python
`re.findall` on a pattern with one group returns group captures, not whole
matches — this is the behaviour being modelled. -/
def yearMatchAt (l : List Char) : Option String :=
  match l with
  | a :: b :: c :: d :: rest =>
    if ((a = Char.ofNat 49 && b = Char.ofNat 57) || (a = Char.ofNat 50 && b = Char.ofNat 48)) &&
       isDigit c && isDigit d && boundaryAfter rest then
      some (String.mk [a, b])
    else none
  | _ => none

/-- Non-overlapping scan of `re.findall(r"\b(19|20)\d{2}\b", query)`:
`prevWord` records whether the previous character was a word character
(for the left `\b`); fuel is the remaining input length plus one.  After a
match the scan resumes at the match end, whose preceding character is a
digit, hence `prevWord := true`. -/
def findYearsAux : Nat → List Char → Bool → List String
  | 0, _, _ => []
  | fuel + 1, l, prevWord =>
    match (if prevWord then none else yearMatchAt l) with
    | some grp => grp :: findYearsAux fuel (l.drop 4) true
    | none =>
      match l with
      | [] => []
      | c :: t => findYearsAux fuel t (isWordChar c)

/-- `re.findall(self.temporal_patterns["year_patterns"], query)` — the list of
`(19|20)` group captures. -/
def findYearGroups (query : String) : List String :=
  findYearsAux (query.data.length + 1) query.data false

/-- Greedy count of leading Python-whitespace characters. -/
def countWS (l : List Char) : Nat := (l.takeWhile isPyWS).length

/-- First-group alternatives of the quarter pattern
`\b(Q[1-4]|first|second|third|fourth)\s+(quarter|Q)\b`, in alternation order.
(The pattern is applied to the lower-cased query, so the upper-case `Q`
branches can never fire, but they are kept for fidelity.) -/
def quarterG1Alts : List String :=
  ["Q1", "Q2", "Q3", "Q4", "first", "second", "third", "fourth"]

/-- Second-group alternatives `quarter|Q`. -/
def quarterG2Alts : List String := ["quarter", "Q"]

/-- Try the quarter pattern at the head of `l` (left `\b` checked by caller):
first group, then `\s+`, then second group, then right `\b`; returns the two
group captures and the match length. -/
def quarterMatchAt (l : List Char) : Option (String × String × Nat) :=
  match quarterG1Alts.find? (fun w => isPrefixCL w.data l) with
  | none => none
  | some g1 =>
    let l2 := l.drop g1.data.length
    let k := countWS l2
    if k = 0 then none
    else
      let l3 := l2.drop k
      match quarterG2Alts.find? (fun w =>
          isPrefixCL w.data l3 && boundaryAfter (l3.drop w.data.length)) with
      | none => none
      | some g2 => some (g1, g2, g1.data.length + k + g2.data.length)

/-- Non-overlapping scan of
`re.findall(self.temporal_patterns["quarter_patterns"], query.lower())`,
returning the pairs of group captures.  Fuel as in `findYearsAux`; after a
match the last matched character is a word character, so `prevWord := true`. -/
def findQuartersAux : Nat → List Char → Bool → List (String × String)
  | 0, _, _ => []
  | fuel + 1, l, prevWord =>
    match (if prevWord then none else quarterMatchAt l) with
    | some (g1, g2, k) => (g1, g2) :: findQuartersAux fuel (l.drop (max k 1)) true
    | none =>
      match l with
      | [] => []
      | c :: t => findQuartersAux fuel t (isWordChar c)

/-- The quarter group-capture pairs found in the lower-cased query. -/
def findQuarters (queryLower : String) : List (String × String) :=
  findQuartersAux (queryLower.data.length + 1) queryLower.data false

/-- Try a `\b`-delimited alternative at the head of `l`: the alternative is a
list of literals joined by `\s+` (only `over\s+time` has more than one).
Returns true when it matches with a word boundary after it. -/
def wordAltMatchLen (alt : List String) (l : List Char) : Option Nat :=
  match alt with
  | [] => some 0
  | w :: rest =>
    if isPrefixCL w.data l then
      match rest with
      | [] => some w.data.length
      | _ =>
        let l2 := l.drop w.data.length
        let k := countWS l2
        if k = 0 then none
        else (wordAltMatchLen rest (l2.drop k)).map (fun m => w.data.length + k + m)
    else none

/-- `re.search` of `\b(alt1|alt2|...)\b` over `l` (all alternatives start and
end with word characters). -/
def searchWordAlts (alts : List (List String)) : List Char → Bool → Bool
  | l, prevWord =>
    (if prevWord then false
     else alts.any (fun alt =>
        match wordAltMatchLen alt l with
        | some k => boundaryAfter (l.drop k)
        | none => false)) ||
    match l with
    | [] => false
    | c :: t => searchWordAlts alts t (isWordChar c)

/-- `FinancialTaxonomy.temporal_patterns["period_patterns"]`, in dict order.
(`YoY` and `QoQ` are searched in the lower-cased query and can never match,
but are kept for fidelity.) -/
def periodPatterns : List (String × List (List String)) :=
  [("annual", [["annual"], ["yearly"], ["year-over-year"], ["YoY"]]),
   ("quarterly", [["quarterly"], ["quarter"], ["QoQ"]]),
   ("recent", [["recent"], ["latest"], ["current"], ["last"], ["past"]]),
   ("historical", [["historical"], ["over", "time"], ["trend"], ["evolution"]])]

/-- `temporal_info` as built by `_extract_temporal_info`. -/
structure TemporalInfo where
  years : List Nat
  quarters : List (String × String)
  periodType : Option String
deriving DecidableEq, Repr

/-- `FinancialTaxonomy._extract_temporal_info`. -/
def extractTemporalInfo (query : String) : TemporalInfo :=
  { years := (findYearGroups query).map natOfDigits,
    quarters := findQuarters (lowerS query),
    periodType :=
      (periodPatterns.find? (fun e => searchWordAlts e.2 (lowerS query).data false)).map
        (fun e => e.1) }

/-- `FinancialTaxonomy._extract_tickers`.  The first loop tests each ticker
symbol for substring containment in the upper-cased query; the second tests
each `COMPANIES` *value* (a CIK digit string, bound to the loop variable
`company_name` in the source) against the lower-cased query.  `list(set(...))`
is modelled as `dedup`. -/
def extractTickers (query : String) : List String :=
  let qUpper := upperS query
  let t1 := COMPANIES.filterMap (fun e => if strIn e.1 qUpper then some e.1 else none)
  let t2 := COMPANIES.filterMap
    (fun e => if strIn (lowerS e.2) (lowerS query) then some e.1 else none)
  (t1 ++ t2).dedup

/-- `FinancialTaxonomy._map_financial_concepts`: a concept matches when any of
its keywords occurs (lower-cased) as a substring of the lower-cased query. -/
def mapFinancialConcepts (queryLower : String) : List String :=
  taxonomy.filterMap (fun e =>
    if e.2.keywords.any (fun kw => strIn (lowerS kw) queryLower) then some e.1 else none)

/-- `FinancialTaxonomy._get_relevant_sections` (set union modelled as `dedup`
of the concatenation in concept order). -/
def getRelevantSections (financialConcepts : List String) : List String :=
  (financialConcepts.flatMap (fun c =>
    match List.lookup c taxonomy with
    | some info => info.secSections
    | none => [])).dedup

/-- `FinancialTaxonomy._get_filing_types`. -/
def getFilingTypes (financialConcepts : List String) (temporalInfo : TemporalInfo) :
    List String :=
  let base := (financialConcepts.flatMap (fun c =>
    match List.lookup c taxonomy with
    | some info => info.filingTypes
    | none => [])).dedup
  if temporalInfo.periodType = some "annual" then (base ++ ["10-K"]).dedup
  else if temporalInfo.periodType = some "quarterly" then (base ++ ["10-Q"]).dedup
  else base

/-- The `search_strategy` dict built by `_determine_search_strategy`; the
`filters` dict holds at most the `"years"` key. -/
structure Strategy where
  searchType : String
  filters : List (String × List Nat)
  rankingFactors : List String
deriving DecidableEq, Repr

/-- `FinancialTaxonomy._determine_search_strategy`. -/
def determineSearchStrategy (financialConcepts : List String)
    (temporalInfo : TemporalInfo) : Strategy :=
  let searchType :=
    if financialConcepts.length = 1 ∧
       financialConcepts.getD 0 "" ∈ ["revenue_performance", "risk_factors"] then
      "semantic"
    else if temporalInfo.years ≠ [] ∨ temporalInfo.quarters ≠ [] then "hybrid"
    else "semantic"
  let filters := if temporalInfo.years ≠ [] then [("years", temporalInfo.years)] else []
  { searchType := searchType, filters := filters,
    rankingFactors := ["semantic_similarity", "section_relevance", "temporal_relevance"] }

/-- The dict returned by `FinancialTaxonomy.parse_query`. -/
structure QueryIntent where
  originalQuery : String
  tickers : List String
  temporalInfo : TemporalInfo
  financialConcepts : List String
  relevantSections : List String
  filingTypes : List String
  searchStrategy : Strategy
deriving DecidableEq, Repr

/-- `FinancialTaxonomy.parse_query`. -/
def parseQuery (query : String) : QueryIntent :=
  let queryLower := lowerS query
  let concepts := mapFinancialConcepts queryLower
  let temporal := extractTemporalInfo query
  { originalQuery := query,
    tickers := extractTickers query,
    temporalInfo := temporal,
    financialConcepts := concepts,
    relevantSections := getRelevantSections concepts,
    filingTypes := getFilingTypes concepts temporal,
    searchStrategy := determineSearchStrategy concepts temporal }

/-! ## Document segmenter (`SECDocumentProcessor`)

The six `section_patterns` regexes are concatenations of case-insensitive
literals, character-class stars (`\s*`, `[\.\s]*`) and one optional
apostrophe.  In each of them the character following a star or an optional
item can never be consumed by that item, so greedy matching without
backtracking is exact; the engine below exploits this. -/

/-- Character classes appearing in the section patterns. -/
inductive CCls where
  | ws : CCls
  | dotWs : CCls
deriving DecidableEq, Repr

/-- Interpretation of a character class. -/
def inCls : CCls → Char → Bool
  | CCls.ws, c => isPyWS c
  | CCls.dotWs, c => isPyWS c || c = Char.ofNat 46

/-- One item of a section pattern. -/
inductive RItem where
  | lit : List Char → RItem
  | star : CCls → RItem
  | opt : Char → RItem
deriving DecidableEq, Repr

/-- A section pattern: a sequence of items. -/
abbrev Pat := List RItem

/-- Greedy match of a pattern against the head of `l`; returns the number of
characters consumed. -/
def matchLen : Pat → List Char → Option Nat
  | [], _ => some 0
  | RItem.lit s :: rest, l =>
    if isPrefixCL s l then (matchLen rest (l.drop s.length)).map (· + s.length) else none
  | RItem.star cls :: rest, l =>
    (matchLen rest (l.drop (l.takeWhile (inCls cls)).length)).map
      (· + (l.takeWhile (inCls cls)).length)
  | RItem.opt c :: rest, l =>
    match l with
    | x :: t => if x = c then (matchLen rest t).map (· + 1) else matchLen rest l
    | [] => matchLen rest []

/-- Leftmost match of a pattern in `l`, scanning all suffixes; `i` is the
absolute position of the head of `l`.  Returns (start, end) positions, the
`re.finditer` convention. -/
def firstMatchFrom (p : Pat) : List Char → Nat → Option (Nat × Nat)
  | l, i =>
    match matchLen p l with
    | some k => some (i, i + k)
    | none =>
      match l with
      | [] => none
      | _ :: t => firstMatchFrom p t (i + 1)

/-- Position of the first match of `p` in `l` (like `re.finditer(...)[0]`). -/
def firstMatch (p : Pat) (l : List Char) : Option (Nat × Nat) := firstMatchFrom p l 0

/-- Shorthand for pattern literals (already lower-cased, matching the
`re.IGNORECASE` convention of searching a lower-cased text). -/
def plit (s : String) : RItem := RItem.lit s.data

/-- `SECDocumentProcessor.section_patterns`, in dict order.  Each regex is
rendered item by item; matching is performed on the lower-cased document. -/
def sectionPatterns : List (String × Pat) :=
  [("Risk Factors",
    [plit "item", RItem.star CCls.ws, plit "1a", RItem.star CCls.dotWs,
     plit "risk", RItem.star CCls.ws, plit "factors"]),
   ("Business",
    [plit "item", RItem.star CCls.ws, plit "1", RItem.star CCls.dotWs,
     plit "business"]),
   ("MD&A",
    [plit "item", RItem.star CCls.ws, plit "7", RItem.star CCls.dotWs,
     plit "management", RItem.opt apos, plit "s", RItem.star CCls.ws,
     plit "discussion"]),
   ("Financial Statements",
    [plit "item", RItem.star CCls.ws, plit "8", RItem.star CCls.dotWs,
     plit "financial", RItem.star CCls.ws, plit "statements"]),
   ("Compensation",
    [plit "compensation", RItem.star CCls.ws, plit "discussion"]),
   ("Executive Compensation",
    [plit "executive", RItem.star CCls.ws, plit "compensation"])]

/-- One step of the `end = potential_end` minimisation loop of
`extract_sections`: another pattern's first match after `start` lowers the
section end when it falls strictly between `start` and the current end. -/
def endPosStep (cl : List Char) (pat : Pat) (start : Nat) (en : Nat)
    (e2 : String × Pat) : Nat :=
  if e2.2 ≠ pat then
    match firstMatch e2.2 (cl.drop start) with
    | none => en
    | some m =>
      if start < start + m.1 ∧ start + m.1 < en then start + m.1 else en
  else en

/-- The end position `extract_sections` computes for a section whose marker
ends at `start`: the running minimisation over all other patterns, started
at the document length. -/
def sectionEndPos (cl : List Char) (pat : Pat) (start : Nat) (totalLen : Nat) : Nat :=
  sectionPatterns.foldl (endPosStep cl pat start) totalLen

/-- The contribution of one `section_patterns` entry to `extract_sections`:
locate the entry's first match, slice from its end to the nearest later
first-match of any *other* pattern (`start < potential_end < end`), strip,
and keep the section only beyond the 200-character threshold. -/
def sectionEntry (contentData : List Char) (e : String × Pat) : List (String × String) :=
  let cl := contentData.map asciiLower
  match firstMatch e.2 cl with
  | none => []
  | some se =>
    let endPos := sectionEndPos cl e.2 se.2 contentData.length
    let secContent := trimWS ((contentData.drop se.2).take (endPos - se.2))
    if 200 < secContent.length then [(e.1, String.mk secContent)] else []

/-- `SECDocumentProcessor.extract_sections` (the `filing_type` argument is
unused in the source as well). -/
def extractSections (content : String) (filingType : String) : List (String × String) :=
  let base := sectionPatterns.foldl (fun acc e => acc ++ sectionEntry content.data e) []
  if base = [] ∧ 200 < content.data.length then [("General Content", content)] else base

/-- The greedy packing loop of `clean_and_chunk`: `current` is the token list
of the open chunk, `size` the running `current_size` counter, `chunks` the
finished chunks. -/
def chunkGo (maxSize : Nat) : List String → List String → Nat → List String → List String
  | [], current, _, chunks =>
    if current = [] then chunks else chunks ++ [joinSpace current]
  | w :: rest, current, size, chunks =>
    if maxSize < size + (w.length + 1) ∧ current ≠ [] then
      chunkGo maxSize rest [w] w.length (chunks ++ [joinSpace current])
    else
      chunkGo maxSize rest (current ++ [w]) (size + (w.length + 1)) chunks

/-- The token stream `clean_and_chunk` packs: tag removal, whitespace
collapse, then `str.split()`. -/
def wordsOf (content : String) : List String :=
  (splitWS (collapseWS (removeTags content.data))).map String.mk

/-- `SECDocumentProcessor.clean_and_chunk`. -/
def cleanAndChunk (content : String) (maxSize : Nat) : List String :=
  chunkGo maxSize (wordsOf content) [] 0 []

/-- `SECDocumentProcessor.tag_concepts`. -/
def tagConcepts (content : String) : List String :=
  let contentLower := lowerS content
  taxonomy.filterMap (fun e =>
    if e.2.keywords.any (fun kw => strIn (lowerS kw) contentLower) then some e.1 else none)

/-- A document chunk (`DocumentChunk` dataclass; the `section` field is named
`sectionName` because `section` is a Lean keyword). -/
structure DocumentChunk where
  content : String
  ticker : String
  filingType : String
  sectionName : String
  estimatedYear : Option Nat
  chunkId : String
  financialConcepts : List String
  wordCount : Nat
deriving DecidableEq, Repr

/-- How Python renders `estimated_year` inside the `chunk_id` f-string
(`None` for a missing year). -/
def yearStr : Option Nat → String
  | some y => natRepr y
  | none => "None"

/-- The chunk built for one piece of section content with ordinal `k`
(`process_file` loop body). -/
def mkDocumentChunk (chunkContent ticker filingType secName : String)
    (estYear : Option Nat) (k : Nat) : DocumentChunk :=
  { content := chunkContent,
    ticker := ticker,
    filingType := filingType,
    sectionName := secName,
    estimatedYear := estYear,
    chunkId := ticker ++ "_" ++ filingType ++ "_" ++ yearStr estYear ++ "_" ++ natRepr k,
    financialConcepts := tagConcepts chunkContent,
    wordCount := (splitWS chunkContent.data).length }

/-- Chunks for one section's `clean_and_chunk` output, ordinals from `k`. -/
def buildSectionChunks (ticker filingType : String) (estYear : Option Nat)
    (secName : String) : List String → Nat → List DocumentChunk
  | [], _ => []
  | c :: cs, k =>
    mkDocumentChunk c ticker filingType secName estYear k ::
      buildSectionChunks ticker filingType estYear secName cs (k + 1)

/-- Chunks of all sections, with the `chunk_counter` running across
sections as in `process_file`. -/
def buildAllChunks (ticker filingType : String) (estYear : Option Nat) :
    List (String × String) → Nat → List DocumentChunk
  | [], _ => []
  | (secName, secContent) :: rest, k =>
    let cs := cleanAndChunk secContent 1000
    buildSectionChunks ticker filingType estYear secName cs k ++
      buildAllChunks ticker filingType estYear rest (k + cs.length)

/-- `re.search(r'(\d{4})', file_path.name)`: first run of four digits in the
file name, converted with `int`. -/
def findFourDigit : List Char → Option Nat
  | [] => none
  | a :: t =>
    match a :: t with
    | a :: b :: c :: d :: _ =>
      if isDigit a && isDigit b && isDigit c && isDigit d then
        some (natOfDigitsCL [a, b, c, d])
      else findFourDigit t
    | _ => none

/-- `SECDocumentProcessor.process_file` on one file, given its name and its
plain-text content (HTML-to-text extraction of `.html` inputs is outside
this model; `.xml` inputs are read verbatim by the source as well). -/
def processFile (fileName content ticker filingType : String) : List DocumentChunk :=
  if content.data.length < 200 then []
  else
    buildAllChunks ticker filingType (findFourDigit fileName.data)
      (extractSections content filingType) 0

/-- `SECDocumentProcessor.process_company`, the file system modelled as a
list of filing-type directories each holding (file name, content) pairs. -/
def processCompany (ticker : String)
    (filingDirs : List (String × List (String × String))) : List DocumentChunk :=
  filingDirs.foldl (fun acc dir =>
    acc ++ dir.2.foldl (fun a f => a ++ processFile f.1 f.2 ticker dir.1) []) []

/-! ## Embedding engine (`EmbeddingEngine`)

Scores (numpy floats produced by decimal-constant arithmetic) are modelled
as `ℚ`.  The FAISS inner-product index is abstracted as a function from a
requested candidate count to the list of (similarity, position) pairs it
returns, positions indexing `chunks_data`. -/

/-- The `SearchResult` dataclass. -/
structure SearchResult where
  content : String
  ticker : String
  filingType : String
  sectionName : String
  chunkId : String
  financialConcepts : List String
  similarityScore : ℚ
  finalScore : ℚ
deriving DecidableEq, Repr

/-- `EmbeddingEngine.score_metadata`.  The Python truthiness guards
(`query_info.get('tickers') and ...`) are rendered as non-emptiness
conjuncts; the set intersection `set(a) & set(b)` as distinct shared
elements. -/
def scoreMetadata (chunk : DocumentChunk) (queryInfo : QueryIntent) : ℚ :=
  let score : ℚ := 0.1
  let score :=
    if queryInfo.tickers ≠ [] ∧ chunk.ticker ∈ queryInfo.tickers then score + 0.3 else score
  let score :=
    if queryInfo.filingTypes ≠ [] ∧ chunk.filingType ∈ queryInfo.filingTypes then
      score + 0.2
    else score
  let score :=
    if queryInfo.relevantSections ≠ [] ∧
       queryInfo.relevantSections.any
         (fun s => strIn (lowerS s) (lowerS chunk.sectionName)) = true then
      score + 0.2
    else score
  let score :=
    if queryInfo.financialConcepts ≠ [] then
      score +
        ((chunk.financialConcepts.dedup.filter
            (fun c => c ∈ queryInfo.financialConcepts)).length : ℚ) * 0.1
    else score
  min score 1

/-- The in-memory engine state: the optional loaded index and the parallel
chunk-metadata list (`self.index`, `self.chunks_data`). -/
structure EngineState where
  index : Option (Nat → List (ℚ × Nat))
  chunksData : List DocumentChunk

/-- The `search_k = min(top_k * 5, len(self.chunks_data))` candidate-pool
size of `EmbeddingEngine.search`. -/
def searchKOf (topK corpusSize : Nat) : Nat := min (topK * 5) corpusSize

/-- A chunk value used for indexing (`chunks_data[idx]` with `idx`
guaranteed in range by the index contract). -/
def defaultChunk : DocumentChunk :=
  { content := "", ticker := "", filingType := "", sectionName := "",
    estimatedYear := none, chunkId := "", financialConcepts := [], wordCount := 0 }

/-- The candidate list `results` built by the loop of
`EmbeddingEngine.search`: one `SearchResult` per returned (similarity,
index) pair whose similarity is not below the 0.1 floor. -/
def searchCandidates (ix : Nat → List (ℚ × Nat)) (chunksData : List DocumentChunk)
    (queryInfo : QueryIntent) (searchK : Nat) : List SearchResult :=
  (ix searchK).filterMap (fun p =>
    if p.1 < 0.1 then none
    else
      let chunk := chunksData.getD p.2 defaultChunk
      let metadataScore := scoreMetadata chunk queryInfo
      some { content := chunk.content, ticker := chunk.ticker,
             filingType := chunk.filingType, sectionName := chunk.sectionName,
             chunkId := chunk.chunkId, financialConcepts := chunk.financialConcepts,
             similarityScore := p.1,
             finalScore := 0.7 * p.1 + 0.3 * metadataScore })

/-- Stable descending insertion by `final_score`: `r` goes in front of the
first element not scoring strictly above it, so earlier elements win ties —
the behaviour of Python's stable `sorted(..., reverse=True)`. -/
def insertDesc (r : SearchResult) : List SearchResult → List SearchResult
  | [] => [r]
  | x :: xs => if x.finalScore ≤ r.finalScore then r :: x :: xs else x :: insertDesc r xs

/-- Stable sort, descending by `final_score`
(`sorted(results, key=lambda x: x.final_score, reverse=True)`). -/
def sortByFinalDesc : List SearchResult → List SearchResult
  | [] => []
  | x :: xs => insertDesc x (sortByFinalDesc xs)

/-- `EmbeddingEngine.search`: `none` models the `ValueError` raised when no
index is loaded. -/
def search (st : EngineState) (query : String) (topK : Nat) :
    Option (List SearchResult) :=
  match st.index with
  | none => none
  | some ix =>
    let queryInfo := parseQuery query
    let searchK := searchKOf topK st.chunksData.length
    some ((sortByFinalDesc (searchCandidates ix st.chunksData queryInfo searchK)).take topK)

/-- The three artifacts persisted by `save_index` / checked by `load_index`:
embedding matrix file, serialized index file, chunk-metadata pickle. -/
structure IndexArtifacts where
  embeddingsFile : Option (List (List ℚ))
  indexFile : Option (Nat → List (ℚ × Nat))
  metadataFile : Option (List DocumentChunk)

/-- `EmbeddingEngine.load_index`: reports `false` without touching the state
unless all three artifact files exist; otherwise loads the index structure
and the metadata list (the embeddings file is only existence-checked, as in
the source). -/
def loadIndex (fs : IndexArtifacts) (st : EngineState) : Bool × EngineState :=
  match fs.embeddingsFile, fs.indexFile, fs.metadataFile with
  | some _, some ix, some md => (true, { index := some ix, chunksData := md })
  | _, _, _ => (false, st)

/-- The query of the spec's worked example, `"Apple's risk factors in 2022"`. -/
def appleQuery : String := "Apple" ++ aposS ++ "s risk factors in 2022"

/-- Index used by the witnesses below: it returns as many copies of the
(similarity ½, position 0) pair as requested. -/
def wIx : Nat → List (ℚ × Nat) := fun k => List.replicate k ((1 : ℚ)/2, 0)

/-- Witness engine state: a loaded index over a one-chunk corpus. -/
def wState : EngineState := { index := some wIx, chunksData := [defaultChunk] }

/-- The single candidate the `search` loop builds for `wState` and query
`"q"`. -/
def wResult : SearchResult :=
  { content := "", ticker := "", filingType := "", sectionName := "", chunkId := "",
    financialConcepts := [], similarityScore := 1/2,
    finalScore := 0.7 * (1/2) + 0.3 * scoreMetadata defaultChunk (parseQuery "q") }

/-- The input of the spec's chunking example: 1001 single-character tokens
separated by single spaces. -/
def c5Input : String := joinSpace (List.replicate 1001 "a")

/-- The fixed prefix of every chunk id of one file. -/
def chunkIdPrefix (ticker filingType : String) (estYear : Option Nat) : String :=
  ticker ++ "_" ++ filingType ++ "_" ++ yearStr estYear ++ "_"

/-- First colliding file of the counterexample: 250 `x` characters. -/
def c7ContentA : String := String.mk (List.replicate 250 (Char.ofNat 120))

/-- Second colliding file: 250 `y` characters. -/
def c7ContentB : String := String.mk (List.replicate 250 (Char.ofNat 121))

/-- A company directory with one `10-K` folder holding two files whose names
carry the same year. -/
def c7Dirs : List (String × List (String × String)) :=
  [("10-K", [("a2022.xml", c7ContentA), ("b2022.xml", c7ContentB)])]

/-- Whether a pattern begins with a non-empty literal (true of all six
section patterns). -/
def patStartsLit : Pat → Bool
  | RItem.lit (_ :: _) :: _ => true
  | _ => false

/-- Filler of 230 `z` characters, enough to clear the 200-character
threshold. -/
def zFill : String := String.mk (List.replicate 230 (Char.ofNat 122))

/-- The "Risk Factors" pattern (first `section_patterns` entry). -/
def c8RiskPat : Pat := (sectionPatterns.getD 0 ("", [])).2

/-- The "MD&A" pattern (third `section_patterns` entry). -/
def c8MdaPat : Pat := (sectionPatterns.getD 2 ("", [])).2

/-- Document for the C8 witness: a Risk Factors marker, 230 characters of
content, then an MD&A marker and its own content. -/
def c8Content : String :=
  "item 1a. risk factors " ++ zFill ++ " item 7. managements discussion " ++ zFill

/-- Document for the C8 counterexample: the MD&A marker begins exactly where
the Risk Factors marker ends (no gap). -/
def c8AdjContent : String :=
  "item 1a. risk factorsitem 7. managements discussion " ++ zFill

/-! ## Theorems -/

set_option maxRecDepth 4000

theorem tagSpanAux_length_lt :
    ∀ (t : List Char) (seen : Bool) (rest : List Char),
      tagSpanAux t seen = some rest → rest.length < t.length := by
  intro t
  induction t with
  | nil => intro seen rest h; simp [tagSpanAux] at h
  | cons c t ih =>
    intro seen rest h
    by_cases hc : c = Char.ofNat 62
    · simp only [tagSpanAux, hc, if_true] at h
      cases seen with
      | false => simp at h
      | true =>
        simp at h
        subst h
        simp [Nat.lt_succ_self]
    · simp only [tagSpanAux, hc, if_false] at h
      exact Nat.lt_succ_of_lt (ih true rest h)

theorem tagSpan_length_lt {t rest : List Char} (h : tagSpan t = some rest) :
    rest.length < t.length := tagSpanAux_length_lt t false rest h


/-- Claim C1: the spec's example asserts that parsing `"Apple's risk factors
in 2022"` yields tickers `["AAPL"]` and years `[2022]`.  Evaluating the
embedded code at that query shows the code instead produces an empty ticker
list (no ticker symbol is a substring of the upper-cased query, and the
`COMPANIES` values matched as "company names" are CIK digit strings) and
years `[20]` (`re.findall` returns the `(19|20)` group captures, not the
full year); only the concept list matches the spec. -/
theorem C1_parse_apple_query_code_result :
    (parseQuery appleQuery).tickers = [] ∧
    (parseQuery appleQuery).temporalInfo.years = [20] ∧
    (parseQuery appleQuery).financialConcepts = ["risk_factors"] := by
  refine ⟨by decide, by decide, by decide⟩

/-- Behaviour of `_determine_search_strategy` as implemented: "hybrid" is
chosen exactly when a year or quarter was extracted *and* the matched
concept list is not a singleton drawn from
`{revenue_performance, risk_factors}`; the strategy is otherwise
"semantic"; extracted years always land in the filters. -/
theorem determineSearchStrategy_spec (fc : List String) (t : TemporalInfo) :
    ((determineSearchStrategy fc t).searchType = "hybrid" ↔
      ((t.years ≠ [] ∨ t.quarters ≠ []) ∧
        ¬(fc.length = 1 ∧ fc.getD 0 "" ∈ ["revenue_performance", "risk_factors"]))) ∧
    ((determineSearchStrategy fc t).searchType ≠ "hybrid" →
      (determineSearchStrategy fc t).searchType = "semantic") ∧
    ((determineSearchStrategy fc t).filters =
      if t.years ≠ [] then [("years", t.years)] else []) := by
  unfold determineSearchStrategy
  by_cases h1 : fc.length = 1 ∧ fc.getD 0 "" ∈ ["revenue_performance", "risk_factors"]
  · rw [if_pos h1]
    refine ⟨?_, fun _ => rfl, rfl⟩
    constructor
    · intro hcontra; simp at hcontra
    · rintro ⟨-, hns⟩; exact absurd h1 hns
  · rw [if_neg h1]
    by_cases h2 : t.years ≠ [] ∨ t.quarters ≠ []
    · rw [if_pos h2]
      exact ⟨⟨fun _ => ⟨h2, h1⟩, fun _ => rfl⟩, fun h => absurd rfl h, rfl⟩
    · rw [if_neg h2]
      refine ⟨?_, fun _ => rfl, rfl⟩
      constructor
      · intro hcontra; simp at hcontra
      · rintro ⟨hyq, -⟩; exact absurd hyq h2

/-- Counterexample to claim C6: for the query `"risk factors in 2022"` a
year is extracted (`years = [20] ≠ []`), yet the chosen search type is
`"semantic"`, not `"hybrid"`, because exactly one concept
(`risk_factors`) was matched and the first branch of
`_determine_search_strategy` wins. -/
theorem C6_counterexample_semantic_despite_year :
    (parseQuery "risk factors in 2022").temporalInfo.years ≠ [] ∧
    (parseQuery "risk factors in 2022").searchStrategy.searchType ≠ "hybrid" ∧
    (parseQuery "risk factors in 2022").searchStrategy.searchType = "semantic" := by
  refine ⟨by decide, by decide, by decide⟩

/-- Claim C6, amended: the search type defaults to "semantic" and is
"hybrid" whenever a year or quarter was extracted, *unless* exactly one
financial concept was matched and it is `revenue_performance` or
`risk_factors` (then it stays "semantic"); extracted years are recorded in
the strategy's filters regardless of the chosen mode. -/
theorem C6_search_strategy_amended (query : String) :
    ((parseQuery query).searchStrategy.searchType = "hybrid" ↔
      (((parseQuery query).temporalInfo.years ≠ [] ∨
        (parseQuery query).temporalInfo.quarters ≠ []) ∧
       ¬((parseQuery query).financialConcepts.length = 1 ∧
         (parseQuery query).financialConcepts.getD 0 "" ∈
           ["revenue_performance", "risk_factors"]))) ∧
    ((parseQuery query).searchStrategy.searchType ≠ "hybrid" →
      (parseQuery query).searchStrategy.searchType = "semantic") ∧
    ((parseQuery query).temporalInfo.years ≠ [] →
      (parseQuery query).searchStrategy.filters =
        [("years", (parseQuery query).temporalInfo.years)]) := by
  have h := determineSearchStrategy_spec (mapFinancialConcepts (lowerS query))
    (extractTemporalInfo query)
  have hs : (parseQuery query).searchStrategy =
      determineSearchStrategy (mapFinancialConcepts (lowerS query))
        (extractTemporalInfo query) := rfl
  have ht : (parseQuery query).temporalInfo = extractTemporalInfo query := rfl
  have hf : (parseQuery query).financialConcepts =
      mapFinancialConcepts (lowerS query) := rfl
  rw [hs, ht, hf]
  refine ⟨h.1, h.2.1, fun hy => ?_⟩
  rw [h.2.2, if_pos hy]

/-- Witness for the amended claim C6 at the query `"merger in 2021"`: one
concept (`mergers_acquisitions`, not in the special pair) and a year are
extracted, so the mode is "hybrid" and the years filter is set. -/
theorem C6_search_strategy_amended_witness :
    (parseQuery "merger in 2021").searchStrategy.searchType = "hybrid" ∧
    (parseQuery "merger in 2021").searchStrategy.filters = [("years", [20])] := by
  have h := C6_search_strategy_amended "merger in 2021"
  refine ⟨h.1.mpr ⟨Or.inl (by decide), by decide⟩, ?_⟩
  have := h.2.2 (by decide)
  rw [this]
  decide

/-- Claim C9: `load_index` returns `false` iff one of the three artifacts is
missing, in which case the engine state is untouched; when all three exist
it loads the index structure and the metadata list together. -/
theorem C9_load_index_atomic (fs : IndexArtifacts) (st : EngineState) :
    ((loadIndex fs st).1 = false ↔
      (fs.embeddingsFile = none ∨ fs.indexFile = none ∨ fs.metadataFile = none)) ∧
    ((loadIndex fs st).1 = false → (loadIndex fs st).2 = st) ∧
    ((loadIndex fs st).1 = true →
      (loadIndex fs st).2.index = fs.indexFile ∧
      some (loadIndex fs st).2.chunksData = fs.metadataFile) := by
  obtain ⟨e, ix, md⟩ := fs
  cases e <;> cases ix <;> cases md <;> simp [loadIndex]

/-- Witness for claim C9: with the metadata artifact missing, `load_index`
reports unavailable and leaves the state unchanged. -/
theorem C9_load_index_atomic_witness :
    (loadIndex ⟨some [], some (fun _ => []), none⟩ ⟨none, []⟩).1 = false ∧
    (loadIndex ⟨some [], some (fun _ => []), none⟩ ⟨none, []⟩).2 = ⟨none, []⟩ := by
  have h := C9_load_index_atomic ⟨some [], some (fun _ => []), none⟩ ⟨none, []⟩
  have hf : (loadIndex ⟨some [], some (fun _ => []), none⟩ ⟨none, []⟩).1 = false :=
    h.1.mpr (Or.inr (Or.inr rfl))
  exact ⟨hf, h.2.1 hf⟩

/-- The number of distinct shared elements computed by
`len(set(a) & set(b))`, as counted by the embedding. -/
theorem overlap_card (l1 l2 : List String) :
    (l1.toFinset ∩ l2.toFinset).card =
      (l1.dedup.filter (fun c => c ∈ l2)).length := by
  have hn : (l1.dedup.filter (fun c => c ∈ l2)).Nodup := l1.nodup_dedup.filter _
  rw [← List.toFinset_card_of_nodup hn]
  congr 1
  ext x
  simp [List.mem_filter, List.mem_dedup]

/-- The non-emptiness part of a Python truthiness guard is redundant next to
a membership test. -/
theorem ite_and_ne (l : List String) (a : String) (X Y : ℚ) :
    (if l ≠ [] ∧ a ∈ l then X else Y) = if a ∈ l then X else Y := by
  by_cases h : a ∈ l
  · rw [if_pos ⟨List.ne_nil_of_mem h, h⟩, if_pos h]
  · rw [if_neg (fun hh => h hh.2), if_neg h]

/-- Same for a guard over `List.any`, rephrased as an existential. -/
theorem ite_and_any (l : List String) (p : String → Bool) (X Y : ℚ) :
    (if l ≠ [] ∧ l.any p = true then X else Y) =
      if ∃ s ∈ l, p s = true then X else Y := by
  by_cases h : ∃ s ∈ l, p s = true
  · obtain ⟨s, hs, hp⟩ := h
    rw [if_pos ⟨List.ne_nil_of_mem hs, List.any_eq_true.mpr ⟨s, hs, hp⟩⟩,
      if_pos ⟨s, hs, hp⟩]
  · rw [if_neg, if_neg h]
    rintro ⟨-, hany⟩
    exact h (List.any_eq_true.mp hany)

/-- The concept-overlap guard is redundant: with no matched query concepts
the overlap term is zero anyway. -/
theorem ite_concepts (l1 l2 : List String) (X : ℚ) :
    (if l2 ≠ [] then X + ((l1.dedup.filter (fun c => c ∈ l2)).length : ℚ) * 0.1 else X)
      = X + ((l1.dedup.filter (fun c => c ∈ l2)).length : ℚ) * 0.1 := by
  by_cases h : l2 = []
  · subst h
    simp
  · rw [if_pos h]

/-- Claim C3: the metadata score is the baseline 0.1, plus 0.3 for a ticker
hit, plus 0.2 for a filing-type hit, plus 0.2 (at most once) when some
intent-relevant section name is a case-insensitive substring of the chunk's
section, plus 0.1 per shared concept without a per-term cap, clamped to 1. -/
theorem C3_score_metadata_formula (c : DocumentChunk) (q : QueryIntent) :
    scoreMetadata c q =
      min ((0.1 : ℚ) + (if c.ticker ∈ q.tickers then 0.3 else 0)
        + (if c.filingType ∈ q.filingTypes then 0.2 else 0)
        + (if ∃ s ∈ q.relevantSections, strIn (lowerS s) (lowerS c.sectionName) = true
           then 0.2 else 0)
        + ((c.financialConcepts.toFinset ∩ q.financialConcepts.toFinset).card : ℚ) * 0.1)
        1 := by
  unfold scoreMetadata
  dsimp only
  rw [ite_and_ne, ite_and_ne, ite_and_any, ite_concepts,
    overlap_card c.financialConcepts q.financialConcepts]
  congr 1
  by_cases h1 : c.ticker ∈ q.tickers <;>
    by_cases h2 : c.filingType ∈ q.filingTypes <;>
    by_cases h3 : ∃ s ∈ q.relevantSections, strIn (lowerS s) (lowerS c.sectionName) = true <;>
    simp [h1, h2, h3] <;> ring

/-! ### Properties of the stable descending sort -/

/-- `insertDesc` is a permutation of consing. -/
theorem insertDesc_perm (r : SearchResult) :
    ∀ l : List SearchResult, (insertDesc r l).Perm (r :: l) := by
  intro l
  induction l with
  | nil => exact List.Perm.refl _
  | cons x xs ih =>
    unfold insertDesc
    by_cases h : x.finalScore ≤ r.finalScore
    · rw [if_pos h]
    · rw [if_neg h]
      exact (ih.cons x).trans (List.Perm.swap r x xs)

/-- The sort permutes its input. -/
theorem sortByFinalDesc_perm :
    ∀ l : List SearchResult, (sortByFinalDesc l).Perm l := by
  intro l
  induction l with
  | nil => exact List.Perm.refl _
  | cons x xs ih =>
    exact (insertDesc_perm x (sortByFinalDesc xs)).trans (ih.cons x)

/-- Inserting preserves descending sortedness. -/
theorem insertDesc_sorted (r : SearchResult) :
    ∀ l : List SearchResult,
      l.Pairwise (fun a b => b.finalScore ≤ a.finalScore) →
      (insertDesc r l).Pairwise (fun a b => b.finalScore ≤ a.finalScore) := by
  intro l
  induction l with
  | nil => intro _; simp [insertDesc]
  | cons x xs ih =>
    intro h
    rw [List.pairwise_cons] at h
    unfold insertDesc
    by_cases hx : x.finalScore ≤ r.finalScore
    · rw [if_pos hx]
      refine List.pairwise_cons.mpr ⟨?_, List.pairwise_cons.mpr ⟨h.1, h.2⟩⟩
      intro y hy
      rcases List.mem_cons.mp hy with hy | hy
      · exact hy ▸ hx
      · exact le_trans (h.1 y hy) hx
    · rw [if_neg hx]
      refine List.pairwise_cons.mpr ⟨?_, ih h.2⟩
      intro y hy
      have hy' : y ∈ r :: xs := (insertDesc_perm r xs).mem_iff.mp hy
      rcases List.mem_cons.mp hy' with hy' | hy'
      · exact hy' ▸ le_of_lt (lt_of_not_le hx)
      · exact h.1 y hy'

/-- The sort output is descending in `final_score`. -/
theorem sortByFinalDesc_sorted :
    ∀ l : List SearchResult,
      (sortByFinalDesc l).Pairwise (fun a b => b.finalScore ≤ a.finalScore) := by
  intro l
  induction l with
  | nil => simp [sortByFinalDesc]
  | cons x xs ih => exact insertDesc_sorted x (sortByFinalDesc xs) ih

/-- Inserting keeps the relative order of any fixed score class: the new
element lands after every earlier element scoring strictly above it and
before every equal-scoring element. -/
theorem insertDesc_filter (r : SearchResult) (s : ℚ) :
    ∀ l : List SearchResult,
      (insertDesc r l).filter (fun x => decide (x.finalScore = s)) =
        if r.finalScore = s then
          r :: l.filter (fun x => decide (x.finalScore = s))
        else l.filter (fun x => decide (x.finalScore = s)) := by
  intro l
  induction l with
  | nil =>
    unfold insertDesc
    by_cases hr : r.finalScore = s <;> simp [List.filter, hr]
  | cons x xs ih =>
    unfold insertDesc
    by_cases hx : x.finalScore ≤ r.finalScore
    · rw [if_pos hx]
      by_cases hr : r.finalScore = s <;>
        by_cases hxs : x.finalScore = s <;>
        simp [List.filter_cons, hr, hxs]
    · rw [if_neg hx]
      by_cases hr : r.finalScore = s
      · have hxne : ¬ x.finalScore = s := by
          intro hxe
          exact hx (le_of_eq (hxe.trans hr.symm))
        rw [if_pos hr] at ih ⊢
        simp [List.filter_cons, hxne, ih]
      · rw [if_neg hr] at ih ⊢
        by_cases hxs : x.finalScore = s <;> simp [List.filter_cons, hxs, ih]

/-- Stability: each score class of the sorted output lists its members in
the original input order. -/
theorem sortByFinalDesc_filter (s : ℚ) :
    ∀ l : List SearchResult,
      (sortByFinalDesc l).filter (fun x => decide (x.finalScore = s)) =
        l.filter (fun x => decide (x.finalScore = s)) := by
  intro l
  induction l with
  | nil => rfl
  | cons x xs ih =>
    show (insertDesc x (sortByFinalDesc xs)).filter _ = _
    rw [insertDesc_filter]
    by_cases hxs : x.finalScore = s
    · rw [if_pos hxs]
      simp [List.filter_cons, hxs, ih]
    · rw [if_neg hxs]
      simp [List.filter_cons, hxs, ih]

/-- Anatomy of a candidate built by the `search` loop: it records the pair's
similarity, passed the 0.1 floor, and fuses the chunk's metadata score. -/
theorem searchCandidates_spec (ix : Nat → List (ℚ × Nat))
    (chunksData : List DocumentChunk) (qi : QueryIntent) (k : Nat)
    (r : SearchResult) (hr : r ∈ searchCandidates ix chunksData qi k) :
    ∃ p ∈ ix k, r.similarityScore = p.1 ∧ (0.1 : ℚ) ≤ p.1 ∧
      r.finalScore =
        0.7 * p.1 + 0.3 * scoreMetadata (chunksData.getD p.2 defaultChunk) qi := by
  obtain ⟨p, hp, hf⟩ := List.mem_filterMap.mp hr
  by_cases hlow : p.1 < 0.1
  · rw [if_pos hlow] at hf
    exact absurd hf (by simp)
  · rw [if_neg hlow] at hf
    dsimp only at hf
    have hr' := Option.some_inj.mp hf
    refine ⟨p, hp, ?_, le_of_not_lt hlow, ?_⟩ <;> rw [← hr']

/-- The baseline of `score_metadata` is unconditional: the score never drops
below 0.1. -/
theorem scoreMetadata_ge_baseline (c : DocumentChunk) (q : QueryIntent) :
    (0.1 : ℚ) ≤ scoreMetadata c q := by
  unfold scoreMetadata
  dsimp only
  have hc : (0 : ℚ) ≤
      ((c.financialConcepts.dedup.filter
        (fun x => x ∈ q.financialConcepts)).length : ℚ) := Nat.cast_nonneg _
  split_ifs <;> refine le_min ?_ (by norm_num) <;> nlinarith [hc]

/-- Claim C10: the metadata score is at least the 0.1 baseline, so every
result produced by `search` has
`final_score ≥ 0.7 · similarity_score + 0.03`. -/
theorem C10_final_score_floor :
    (∀ (c : DocumentChunk) (q : QueryIntent), (0.1 : ℚ) ≤ scoreMetadata c q) ∧
    (∀ (st : EngineState) (query : String) (topK : Nat) (res : List SearchResult),
      search st query topK = some res →
      ∀ r ∈ res, 0.7 * r.similarityScore + 0.03 ≤ r.finalScore) := by
  refine ⟨scoreMetadata_ge_baseline, ?_⟩
  intro st query topK res hres r hr
  rcases hix : st.index with _ | ix
  · rw [search, hix] at hres
    exact absurd hres (by simp)
  · rw [search, hix] at hres
    have hres' : res =
        (sortByFinalDesc (searchCandidates ix st.chunksData (parseQuery query)
          (searchKOf topK st.chunksData.length))).take topK := by
      exact (Option.some_inj.mp hres).symm
    rw [hres'] at hr
    have hr2 : r ∈ sortByFinalDesc (searchCandidates ix st.chunksData (parseQuery query)
        (searchKOf topK st.chunksData.length)) :=
      (List.take_sublist _ _).subset hr
    have hr3 : r ∈ searchCandidates ix st.chunksData (parseQuery query)
        (searchKOf topK st.chunksData.length) :=
      (sortByFinalDesc_perm _).mem_iff.mp hr2
    obtain ⟨p, -, hsim, hfloor, hfinal⟩ :=
      searchCandidates_spec _ _ _ _ r hr3
    have hms := scoreMetadata_ge_baseline
      (st.chunksData.getD p.2 defaultChunk) (parseQuery query)
    rw [hfinal, hsim]
    nlinarith [hms]

/-- The candidates of `search wState "q" 1` are exactly `[wResult]`. -/
theorem wCandidates_eq :
    searchCandidates wIx [defaultChunk] (parseQuery "q") (searchKOf 1 1) = [wResult] := by
  show List.filterMap _ (wIx (searchKOf 1 1)) = [wResult]
  have h1 : wIx (searchKOf 1 1) = [((1 : ℚ)/2, 0)] := rfl
  rw [h1, List.filterMap_cons, List.filterMap_nil]
  rw [if_neg (by norm_num : ¬ ((1 : ℚ)/2 < 0.1))]
  rfl

/-- The full search output for the witness state. -/
theorem wSearch_eq : search wState "q" 1 = some [wResult] := by
  show some ((sortByFinalDesc (searchCandidates wIx [defaultChunk] (parseQuery "q")
    (searchKOf 1 1))).take 1) = some [wResult]
  rw [wCandidates_eq]
  rfl

/-- Witness for claim C10 at a concrete engine state and query. -/
theorem C10_final_score_floor_witness :
    (0.7 : ℚ) * (1/2) + 0.03 ≤
      0.7 * (1/2) + 0.3 * scoreMetadata defaultChunk (parseQuery "q") := by
  have h := C10_final_score_floor.2 wState "q" 1 [wResult] wSearch_eq wResult
    (List.mem_singleton.mpr rfl)
  exact h

/-- Claim C2: given a loaded index obeying the FAISS contract (it returns
exactly as many candidates as requested, with in-range positions), `search`
returns at most `top_k` results, sorted descending by `final_score`; every
returned similarity is at least 0.1; each final score fuses 0.7 times the
result's similarity with 0.3 times the metadata score of a corpus chunk;
the candidate pool examined before re-ranking has size
`min(top_k·5, corpus size)`; and the output is a prefix of the stable
descending sort of the candidate list, ties keeping the original
similarity-search order. -/
theorem C2_search_spec (st : EngineState) (query : String) (topK : Nat)
    (ix : Nat → List (ℚ × Nat)) (hix : st.index = some ix)
    (hcount : (ix (searchKOf topK st.chunksData.length)).length =
      searchKOf topK st.chunksData.length)
    (hvalid : ∀ p ∈ ix (searchKOf topK st.chunksData.length),
      p.2 < st.chunksData.length)
    (res : List SearchResult) (hres : search st query topK = some res) :
    res.length ≤ topK ∧
    res.Pairwise (fun a b => b.finalScore ≤ a.finalScore) ∧
    (∀ r ∈ res, (0.1 : ℚ) ≤ r.similarityScore) ∧
    (∀ r ∈ res, ∃ c ∈ st.chunksData,
      r.finalScore = 0.7 * r.similarityScore + 0.3 * scoreMetadata c (parseQuery query)) ∧
    (ix (searchKOf topK st.chunksData.length)).length =
      min (topK * 5) st.chunksData.length ∧
    (∃ full : List SearchResult, res = full.take topK ∧
      full.Perm (searchCandidates ix st.chunksData (parseQuery query)
        (searchKOf topK st.chunksData.length)) ∧
      full.Pairwise (fun a b => b.finalScore ≤ a.finalScore) ∧
      ∀ s : ℚ, full.filter (fun r => decide (r.finalScore = s)) =
        (searchCandidates ix st.chunksData (parseQuery query)
          (searchKOf topK st.chunksData.length)).filter
            (fun r => decide (r.finalScore = s))) := by
  rw [search, hix] at hres
  have hres' : res =
      (sortByFinalDesc (searchCandidates ix st.chunksData (parseQuery query)
        (searchKOf topK st.chunksData.length))).take topK :=
    (Option.some_inj.mp hres).symm
  set cands := searchCandidates ix st.chunksData (parseQuery query)
    (searchKOf topK st.chunksData.length) with hcands
  have hmemc : ∀ r ∈ res, r ∈ cands := by
    intro r hr
    rw [hres'] at hr
    exact (sortByFinalDesc_perm cands).mem_iff.mp ((List.take_sublist _ _).subset hr)
  refine ⟨?_, ?_, ?_, ?_, ?_, ?_⟩
  · rw [hres']
    exact le_trans (List.length_take_le _ _) le_rfl
  · rw [hres']
    exact List.Pairwise.sublist (List.take_sublist _ _) (sortByFinalDesc_sorted cands)
  · intro r hr
    obtain ⟨p, -, hsim, hfloor, -⟩ := searchCandidates_spec _ _ _ _ r (hmemc r hr)
    rw [hsim]
    exact hfloor
  · intro r hr
    obtain ⟨p, hp, hsim, -, hfinal⟩ := searchCandidates_spec _ _ _ _ r (hmemc r hr)
    have hlt := hvalid p hp
    refine ⟨st.chunksData.getD p.2 defaultChunk, ?_, ?_⟩
    · rw [List.getD_eq_getElem st.chunksData defaultChunk hlt]
      exact List.getElem_mem hlt
    · rw [hfinal, hsim]
  · rw [hcount]
    rfl
  · exact ⟨sortByFinalDesc cands, hres', sortByFinalDesc_perm cands,
      sortByFinalDesc_sorted cands, fun s => sortByFinalDesc_filter s cands⟩

/-- Witness for claim C2 at the concrete engine `wState`, query `"q"` and
`top_k = 1`, discharging the index-contract hypotheses. -/
theorem C2_search_spec_witness :
    [wResult].length ≤ 1 ∧ (0.1 : ℚ) ≤ wResult.similarityScore := by
  have h := C2_search_spec wState "q" 1 wIx rfl (by decide)
    (by intro p hp; simp only [wIx] at hp; rw [List.eq_of_mem_replicate hp]; decide)
    [wResult] wSearch_eq
  exact ⟨h.1, h.2.2.1 wResult (List.mem_singleton.mpr rfl)⟩

/-! ### Chunk packing bounds (claims C4, C5) -/

/-- Joining with single spaces distributes over appending one word. -/
theorem joinSpace_append_single (w : String) :
    ∀ l : List String, l ≠ [] → joinSpace (l ++ [w]) = joinSpace l ++ " " ++ w := by
  intro l
  induction l with
  | nil => intro h; exact absurd rfl h
  | cons x xs ih =>
    intro _h
    cases xs with
    | nil => rfl
    | cons y ys =>
      show joinSpace (x :: ((y :: ys) ++ [w])) = _
      have h1 : joinSpace (x :: ((y :: ys) ++ [w])) =
          x ++ " " ++ joinSpace ((y :: ys) ++ [w]) := rfl
      rw [h1, ih (by simp)]
      have h2 : joinSpace (x :: y :: ys) = x ++ " " ++ joinSpace (y :: ys) := rfl
      rw [h2]
      simp [String.append_assoc]

/-- The invariant of the greedy packing loop: every emitted chunk respects
`max_size` unless it is one single oversized token. -/
theorem chunkGo_bound (maxSize : Nat) (allW : List String) :
    ∀ (ws current : List String) (size : Nat) (chunks : List String),
      (∀ w ∈ ws, w ∈ allW) →
      (∀ w ∈ current, w ∈ allW) →
      (current ≠ [] →
        (joinSpace current).length ≤ size ∧ (size ≤ maxSize ∨ ∃ w, current = [w])) →
      (∀ c ∈ chunks, c.length ≤ maxSize ∨ ∃ w ∈ allW, c = w ∧ maxSize < w.length) →
      ∀ c ∈ chunkGo maxSize ws current size chunks,
        c.length ≤ maxSize ∨ ∃ w ∈ allW, c = w ∧ maxSize < w.length := by
  intro ws
  induction ws with
  | nil =>
    intro current size chunks hws hcw hcur hchunks c hc
    rw [chunkGo] at hc
    by_cases hne : current = []
    · rw [if_pos hne] at hc
      exact hchunks c hc
    · rw [if_neg hne] at hc
      rcases List.mem_append.mp hc with hc | hc
      · exact hchunks c hc
      · have hcj : c = joinSpace current := List.mem_singleton.mp hc
        obtain ⟨hlen, hdisj⟩ := hcur hne
        rcases hdisj with hsz | ⟨w, hw⟩
        · exact Or.inl (hcj ▸ le_trans hlen hsz)
        · have hcw' : c = w := by rw [hcj, hw]; rfl
          rcases le_or_lt w.length maxSize with hle | hgt
          · exact Or.inl (hcw' ▸ hle)
          · exact Or.inr ⟨w, hcw w (by rw [hw]; exact List.mem_singleton_self w), hcw', hgt⟩
  | cons w rest ih =>
    intro current size chunks hws hcw hcur hchunks c hc
    rw [chunkGo] at hc
    by_cases hcond : maxSize < size + (w.length + 1) ∧ current ≠ []
    · rw [if_pos hcond] at hc
      refine ih [w] w.length (chunks ++ [joinSpace current])
        (fun x hx => hws x (List.mem_cons_of_mem w hx))
        (fun x hx => hws x (List.mem_singleton.mp hx ▸ List.mem_cons_self w rest))
        (fun _ => ⟨le_refl _, Or.inr ⟨w, rfl⟩⟩) ?_ c hc
      intro d hd
      rcases List.mem_append.mp hd with hd | hd
      · exact hchunks d hd
      · have hdj : d = joinSpace current := List.mem_singleton.mp hd
        obtain ⟨hlen, hdisj⟩ := hcur hcond.2
        rcases hdisj with hsz | ⟨v, hv⟩
        · exact Or.inl (hdj ▸ le_trans hlen hsz)
        · have hdv : d = v := by rw [hdj, hv]; rfl
          rcases le_or_lt v.length maxSize with hle | hgt
          · exact Or.inl (hdv ▸ hle)
          · exact Or.inr ⟨v, hcw v (by rw [hv]; exact List.mem_singleton_self v), hdv, hgt⟩
    · rw [if_neg hcond] at hc
      refine ih (current ++ [w]) (size + (w.length + 1)) chunks
        (fun x hx => hws x (List.mem_cons_of_mem w hx)) ?_ ?_ hchunks c hc
      · intro x hx
        rcases List.mem_append.mp hx with hx | hx
        · exact hcw x hx
        · exact hws x (List.mem_singleton.mp hx ▸ List.mem_cons_self w rest)
      · intro _h
        by_cases hne : current = []
        · subst hne
          exact ⟨by simp [joinSpace]; omega, Or.inr ⟨w, rfl⟩⟩
        · obtain ⟨hlen, -⟩ := hcur hne
          have hsz : ¬ maxSize < size + (w.length + 1) := fun hlt => hcond ⟨hlt, hne⟩
          refine ⟨?_, Or.inl (le_of_not_lt hsz)⟩
          rw [joinSpace_append_single w current hne]
          have : (joinSpace current ++ " " ++ w).length =
              (joinSpace current).length + 1 + w.length := by
            rw [String.length_append, String.length_append]
            rfl
          rw [this]
          omega

/-- Claim C4: every chunk produced by `clean_and_chunk` has length at most
`max_size`, except that a single token longer than `max_size` forms its own
chunk consisting of exactly that token. -/
theorem C4_chunk_size_bound (content : String) (maxSize : Nat) :
    ∀ c ∈ cleanAndChunk content maxSize,
      c.length ≤ maxSize ∨ ∃ w ∈ wordsOf content, c = w ∧ maxSize < w.length := by
  intro c hc
  exact chunkGo_bound maxSize (wordsOf content) (wordsOf content) [] 0 []
    (fun _ hw => hw) (by simp) (fun h => absurd rfl h) (by simp) c hc

/-- Witness for claim C4 on a small concrete text. -/
theorem C4_chunk_size_bound_witness :
    ("ab" ∈ cleanAndChunk "ab cd" 2) ∧
    (("ab" : String).length ≤ 2 ∨ ∃ w ∈ wordsOf "ab cd", "ab" = w ∧ 2 < w.length) :=
  ⟨by decide, C4_chunk_size_bound "ab cd" 2 "ab" (by decide)⟩

/-- Character shape of the example text: one `a`, then a space, then the
rest. -/
theorem c5_data_cons (n : Nat) :
    (joinSpace (List.replicate (n + 2) "a")).data =
      'a' :: ' ' :: (joinSpace (List.replicate (n + 1) "a")).data := by
  rw [List.replicate_succ, List.replicate_succ]
  have h1 : joinSpace ("a" :: "a" :: List.replicate n "a") =
      "a" ++ " " ++ joinSpace ("a" :: List.replicate n "a") := rfl
  rw [h1, String.data_append, String.data_append, ← List.replicate_succ]
  rfl

/-- The example text starts with `a`. -/
theorem c5_head (n : Nat) :
    ∃ t, (joinSpace (List.replicate (n + 1) "a")).data = 'a' :: t := by
  cases n with
  | zero => exact ⟨[], rfl⟩
  | succ m => exact ⟨_, c5_data_cons m⟩

/-- Every character of the example text is `a` or a space. -/
theorem c5_chars (n : Nat) :
    ∀ c ∈ (joinSpace (List.replicate (n + 1) "a")).data, c = 'a' ∨ c = ' ' := by
  induction n with
  | zero =>
    intro c hc
    have : (joinSpace (List.replicate 1 "a")).data = ['a'] := rfl
    rw [this] at hc
    exact Or.inl (List.mem_singleton.mp hc)
  | succ m ih =>
    intro c hc
    rw [c5_data_cons m] at hc
    rcases List.mem_cons.mp hc with h | hc
    · exact Or.inl h
    · rcases List.mem_cons.mp hc with h | hc
      · exact Or.inr h
      · exact ih c hc

/-- `removeTagsAux` is the identity on tag-free text. -/
theorem removeTagsAux_id :
    ∀ (fuel : Nat) (l : List Char), (∀ c ∈ l, c ≠ Char.ofNat 60) →
      removeTagsAux fuel l = l := by
  intro fuel
  induction fuel with
  | zero => intro l _; rfl
  | succ f ih =>
    intro l hl
    cases l with
    | nil => rfl
    | cons c t =>
      rw [removeTagsAux, if_neg (hl c (List.mem_cons_self c t))]
      rw [ih t (fun d hd => hl d (List.mem_cons_of_mem c hd))]

/-- A whitespace-collapse step ignores the flag in front of a
non-whitespace head. -/
theorem collapseWSAux_flag (c : Char) (t : List Char) (hc : isPyWS c = false) :
    collapseWSAux (c :: t) true = collapseWSAux (c :: t) false := by
  rw [collapseWSAux, collapseWSAux, if_neg (by simp [hc]), if_neg (by simp [hc])]

/-- `collapseWSAux` is the identity on the example text. -/
theorem c5_collapseAux (n : Nat) :
    collapseWSAux (joinSpace (List.replicate (n + 1) "a")).data false =
      (joinSpace (List.replicate (n + 1) "a")).data := by
  induction n with
  | zero => decide
  | succ m ih =>
    rw [c5_data_cons m, collapseWSAux, if_neg (by decide)]
    rw [collapseWSAux, if_pos (by decide)]
    obtain ⟨t, ht⟩ := c5_head m
    rw [ht, collapseWSAux_flag 'a' t (by decide), ← ht, ih]
    simp

/-- The example text ends with `a` (first char of its reversal). -/
theorem c5_last (n : Nat) :
    ∃ t, (joinSpace (List.replicate (n + 1) "a")).data.reverse = 'a' :: t := by
  induction n with
  | zero => exact ⟨[], rfl⟩
  | succ m ih =>
    obtain ⟨t, ht⟩ := ih
    refine ⟨t ++ [' ', 'a'], ?_⟩
    rw [c5_data_cons m, List.reverse_cons, List.reverse_cons, ht]
    simp

/-- Stripping is the identity on the example text. -/
theorem c5_trim (n : Nat) :
    trimWS (joinSpace (List.replicate (n + 1) "a")).data =
      (joinSpace (List.replicate (n + 1) "a")).data := by
  obtain ⟨t1, ht1⟩ := c5_head n
  obtain ⟨t2, ht2⟩ := c5_last n
  unfold trimWS
  rw [ht1, List.dropWhile_cons, if_neg (by decide), ← ht1]
  rw [ht2, List.dropWhile_cons, if_neg (by decide), ← ht2]
  exact List.reverse_reverse _

/-- Splitting the example text yields its tokens. -/
theorem c5_split (n : Nat) :
    splitWSAux (joinSpace (List.replicate (n + 1) "a")).data [] =
      List.replicate (n + 1) ['a'] := by
  induction n with
  | zero => decide
  | succ m ih =>
    rw [c5_data_cons m, splitWSAux, if_neg (by decide)]
    show splitWSAux (' ' :: (joinSpace (List.replicate (m + 1) "a")).data) ['a'] =
      List.replicate (m + 2) ['a']
    rw [splitWSAux, if_pos (by decide), if_neg (by decide), ih]
    rfl

/-- The token stream of the example text is its 1001 `"a"` tokens. -/
theorem c5_words :
    wordsOf c5Input = List.replicate 1001 "a" := by
  unfold wordsOf c5Input
  rw [show (1001 : Nat) = 1000 + 1 from rfl]
  unfold removeTags
  rw [removeTagsAux_id _ _ (fun c hc => by
    rcases c5_chars 1000 c hc with h | h <;> rw [h] <;> decide)]
  unfold collapseWS
  rw [c5_collapseAux 1000, c5_trim 1000]
  unfold splitWS
  rw [c5_split 1000, List.map_replicate]

/-- One fill step of the packing loop on a single-character token. -/
theorem c5_fill_one (m : Nat) (cur : List String) (size : Nat) (chunks : List String)
    (hsz : size + 2 ≤ 1000) :
    chunkGo 1000 (List.replicate (m + 1) "a") cur size chunks =
      chunkGo 1000 (List.replicate m "a") (cur ++ ["a"]) (size + 2) chunks := by
  rw [List.replicate_succ, chunkGo,
    if_neg (fun h => absurd h.1 (by rw [show ("a" : String).length = 1 from rfl]; omega))]
  rw [show ("a" : String).length = 1 from rfl]

/-- Iterated fill steps. -/
theorem c5_fill :
    ∀ (k m : Nat) (cur : List String) (size : Nat) (chunks : List String),
      size + 2 * k ≤ 1000 →
      chunkGo 1000 (List.replicate (k + m) "a") cur size chunks =
        chunkGo 1000 (List.replicate m "a") (cur ++ List.replicate k "a")
          (size + 2 * k) chunks := by
  intro k
  induction k with
  | zero => intro m cur size chunks _; simp
  | succ j ih =>
    intro m cur size chunks hsz
    rw [show j + 1 + m = (j + m) + 1 from by omega]
    rw [c5_fill_one (j + m) cur size chunks (by omega)]
    rw [ih m (cur ++ ["a"]) (size + 2) chunks (by omega)]
    rw [List.append_assoc]
    rw [show (["a"] ++ List.replicate j "a" : List String) = List.replicate (j + 1) "a"
      from by rw [List.replicate_succ]; rfl]
    rw [show size + 2 + 2 * j = size + 2 * (j + 1) from by omega]

/-- A close step of the packing loop. -/
theorem c5_close (m : Nat) (cur : List String) (size : Nat) (chunks : List String)
    (hsz : 1000 < size + 2) (hne : cur ≠ []) :
    chunkGo 1000 (List.replicate (m + 1) "a") cur size chunks =
      chunkGo 1000 (List.replicate m "a") ["a"] 1 (chunks ++ [joinSpace cur]) := by
  rw [List.replicate_succ, chunkGo,
    if_pos ⟨by rw [show ("a" : String).length = 1 from rfl]; omega, hne⟩]
  rw [show ("a" : String).length = 1 from rfl]

/-- The terminal step of the packing loop. -/
theorem c5_end (cur : List String) (size : Nat) (chunks : List String) (hne : cur ≠ []) :
    chunkGo 1000 [] cur size chunks = chunks ++ [joinSpace cur] := by
  rw [chunkGo, if_neg hne]

/-- The chunk count of the spec's example input under the embedded
`clean_and_chunk`. -/
theorem c5_count : (cleanAndChunk c5Input 1000).length = 3 := by
  unfold cleanAndChunk
  rw [c5_words]
  rw [show (1001 : Nat) = 500 + 501 from by norm_num]
  rw [c5_fill 500 501 [] 0 [] (by norm_num)]
  rw [show (501 : Nat) = 500 + 1 from by norm_num]
  rw [c5_close 500 _ _ _ (by norm_num) (by simp)]
  rw [show (500 : Nat) = 499 + 1 from by norm_num]
  rw [c5_fill 499 1 ["a"] 1 _ (by norm_num)]
  rw [show (1 : Nat) = 0 + 1 from rfl]
  rw [c5_close 0 _ _ _ (by norm_num) (by simp)]
  rw [show List.replicate 0 ("a" : String) = [] from rfl]
  rw [c5_end _ _ _ (by simp)]
  simp

/-- Counterexample to claim C5: chunking the 1001-token example text with
`max_size = 1000` does not produce 2 chunks. -/
theorem C5_counterexample_not_two_chunks :
    (cleanAndChunk c5Input 1000).length ≠ 2 := by
  rw [c5_count]
  decide

/-- Claim C5, amended: chunking the text of 1001 single-character tokens
separated by spaces with `max_size = 1000` produces exactly 3 chunks
(two full chunks of 500 tokens each, then the last token). -/
theorem C5_three_chunks : (cleanAndChunk c5Input 1000).length = 3 := c5_count

/-! ### Chunk identifiers (claim C7) -/

/-- All digits produced by `digitsRev` are below 10. -/
theorem digitsRev_lt : ∀ (fuel n : Nat), ∀ d ∈ digitsRev fuel n, d < 10 := by
  intro fuel
  induction fuel with
  | zero => intro n d hd; simp [digitsRev] at hd
  | succ f ih =>
    intro n d hd
    rw [digitsRev] at hd
    by_cases hn : n = 0
    · rw [if_pos hn] at hd; simp at hd
    · rw [if_neg hn] at hd
      rcases List.mem_cons.mp hd with h | h
      · rw [h]; exact Nat.mod_lt _ (by norm_num)
      · exact ih (n / 10) d h

/-- `digitsRev` is a faithful little-endian decimal representation. -/
theorem digitsRev_ofDigits : ∀ (fuel n : Nat), n ≤ fuel →
    Nat.ofDigits 10 (digitsRev fuel n) = n := by
  intro fuel
  induction fuel with
  | zero =>
    intro n hn
    have : n = 0 := Nat.le_zero.mp hn
    subst this
    simp [digitsRev]
  | succ f ih =>
    intro n hn
    rw [digitsRev]
    by_cases hz : n = 0
    · rw [if_pos hz, hz]; simp
    · rw [if_neg hz, Nat.ofDigits_cons]
      have hdiv : n / 10 ≤ f := by
        have := Nat.div_lt_self (Nat.pos_of_ne_zero hz) (by norm_num : 1 < 10)
        omega
      rw [ih (n / 10) hdiv]
      omega

/-- `digitCh` is injective below 10, hence on digit lists. -/
theorem map_digitCh_inj : ∀ (l1 l2 : List Nat),
    (∀ d ∈ l1, d < 10) → (∀ d ∈ l2, d < 10) →
    l1.map digitCh = l2.map digitCh → l1 = l2 := by
  have hdig : ∀ a < 10, ∀ b < 10, digitCh a = digitCh b → a = b := by decide
  intro l1
  induction l1 with
  | nil =>
    intro l2 _ _ h
    cases l2 with
    | nil => rfl
    | cons x xs => simp at h
  | cons x xs ih =>
    intro l2 h1 h2 h
    cases l2 with
    | nil => simp at h
    | cons y ys =>
      simp only [List.map_cons, List.cons.injEq] at h
      have hx : x = y := hdig x (h1 x (List.mem_cons_self x xs)) y
        (h2 y (List.mem_cons_self y ys)) h.1
      have hxs : xs = ys := ih ys (fun d hd => h1 d (List.mem_cons_of_mem x hd))
        (fun d hd => h2 d (List.mem_cons_of_mem y hd)) h.2
      rw [hx, hxs]

/-- Python's decimal rendering of naturals is injective. -/
theorem natRepr_inj : ∀ a b : Nat, natRepr a = natRepr b → a = b := by
  have hval : ∀ n : Nat, n ≠ 0 → Nat.ofDigits 10 (digitsRev n n) = n :=
    fun n _ => digitsRev_ofDigits n n le_rfl
  intro a b h
  have h' : natDigits a = natDigits b := congrArg String.data h
  unfold natDigits at h'
  by_cases ha : a = 0 <;> by_cases hb : b = 0
  · rw [ha, hb]
  · rw [if_pos ha, if_neg hb] at h'
    have h'' : (digitsRev b b).map digitCh = [digitCh 0] := by
      have := congrArg List.reverse h'
      simpa using this.symm
    have hb0 : digitsRev b b = [0] :=
      map_digitCh_inj _ [0] (digitsRev_lt b b) (by intro d hd; simp at hd; omega) h''
    have := hval b hb
    rw [hb0] at this
    simp [Nat.ofDigits] at this
    exact absurd this.symm hb
  · rw [if_neg ha, if_pos hb] at h'
    have h'' : (digitsRev a a).map digitCh = [digitCh 0] := by
      have := congrArg List.reverse h'
      simpa using this
    have ha0 : digitsRev a a = [0] :=
      map_digitCh_inj _ [0] (digitsRev_lt a a) (by intro d hd; simp at hd; omega) h''
    have := hval a ha
    rw [ha0] at this
    simp [Nat.ofDigits] at this
    exact absurd this.symm ha
  · rw [if_neg ha, if_neg hb] at h'
    have h'' := List.reverse_injective h'
    have hd : digitsRev a a = digitsRev b b :=
      map_digitCh_inj _ _ (digitsRev_lt a a) (digitsRev_lt b b) h''
    have hva := hval a ha
    have hvb := hval b hb
    rw [hd] at hva
    omega

/-- Appending distinct ordinals to the same prefix gives distinct ids. -/
theorem chunkId_ordinal_inj (ticker filingType : String) (estYear : Option Nat) :
    Function.Injective (fun k => chunkIdPrefix ticker filingType estYear ++ natRepr k) := by
  intro i j h
  have hdata := congrArg String.data h
  simp only [String.data_append] at hdata
  have hrepr : (natRepr i).data = (natRepr j).data :=
    List.append_cancel_left hdata
  exact natRepr_inj i j (congrArg String.mk hrepr)

/-- The ids of one section's chunks are the prefixed ordinals `k, k+1, …`. -/
theorem buildSectionChunks_ids (ticker filingType : String) (estYear : Option Nat)
    (secName : String) :
    ∀ (cs : List String) (k : Nat),
      (buildSectionChunks ticker filingType estYear secName cs k).map
          (fun c => c.chunkId) =
        (List.range' k cs.length).map
          (fun i => chunkIdPrefix ticker filingType estYear ++ natRepr i) := by
  intro cs
  induction cs with
  | nil => intro k; rfl
  | cons c cs ih =>
    intro k
    rw [buildSectionChunks, List.map_cons, List.length_cons, List.range'_succ,
      List.map_cons, ih (k + 1)]
    rfl

/-- The ids of a whole file's chunks are prefixed consecutive ordinals. -/
theorem buildAllChunks_ids (ticker filingType : String) (estYear : Option Nat) :
    ∀ (secs : List (String × String)) (k : Nat), ∃ n,
      (buildAllChunks ticker filingType estYear secs k).map (fun c => c.chunkId) =
        (List.range' k n).map
          (fun i => chunkIdPrefix ticker filingType estYear ++ natRepr i) := by
  intro secs
  induction secs with
  | nil => intro k; exact ⟨0, rfl⟩
  | cons sec rest ih =>
    intro k
    obtain ⟨secName, secContent⟩ := sec
    obtain ⟨n, hn⟩ := ih (k + (cleanAndChunk secContent 1000).length)
    refine ⟨(cleanAndChunk secContent 1000).length + n, ?_⟩
    rw [buildAllChunks, List.map_append,
      buildSectionChunks_ids ticker filingType estYear secName _ k, hn,
      ← List.map_append, List.range'_append_1, Nat.add_comm]

/-- Claim C7, amended: the chunk identifiers of all chunks produced from a
single file are pairwise distinct (the ordinal counter runs across the whole
file).  Corpus-wide uniqueness fails: two files sharing ticker, filing type
and estimated year produce colliding ids (see the counterexample). -/
theorem C7_chunk_id_unique_per_file
    (fileName content ticker filingType : String) :
    ((processFile fileName content ticker filingType).map
      (fun c => c.chunkId)).Nodup := by
  unfold processFile
  by_cases h : content.data.length < 200
  · rw [if_pos h]; simp
  · rw [if_neg h]
    obtain ⟨n, hn⟩ := buildAllChunks_ids ticker filingType
      (findFourDigit fileName.data) (extractSections content filingType) 0
    rw [hn]
    exact List.Nodup.map (chunkId_ordinal_inj ticker filingType _) (List.nodup_range' 0 n)

/-- Counterexample to claim C7: processing this company produces two
distinct chunks with the same `chunk_id` (`AAPL_10-K_2022_0` twice), because
the ordinal counter restarts for the second file of the same filing type and
year. -/
theorem C7_counterexample_corpus_collision :
    (processCompany "AAPL" c7Dirs).length = 2 ∧
    ((processCompany "AAPL" c7Dirs).getD 0 defaultChunk).chunkId =
      ((processCompany "AAPL" c7Dirs).getD 1 defaultChunk).chunkId ∧
    (processCompany "AAPL" c7Dirs).getD 0 defaultChunk ≠
      (processCompany "AAPL" c7Dirs).getD 1 defaultChunk := by
  refine ⟨by decide, by decide, by decide⟩

/-! ### Section-boundary analysis (claim C8) -/

/-- A prefix is no longer than the list. -/
theorem isPrefixCL_length : ∀ (s l : List Char), isPrefixCL s l = true → s.length ≤ l.length := by
  intro s
  induction s with
  | nil => intro l _; simp
  | cons a asr ih =>
    intro l h
    cases l with
    | nil => simp [isPrefixCL] at h
    | cons b bs =>
      rw [isPrefixCL] at h
      simp only [Bool.and_eq_true] at h
      have := ih bs h.2
      simpa using this

/-- A match never consumes more than the input. -/
theorem matchLen_le : ∀ (p : Pat) (l : List Char) (k : Nat),
    matchLen p l = some k → k ≤ l.length := by
  intro p
  induction p with
  | nil =>
    intro l k h
    rw [matchLen] at h
    simp at h
    omega
  | cons item rest ih =>
    intro l k h
    cases item with
    | lit s =>
      rw [matchLen] at h
      by_cases hp : isPrefixCL s l = true
      · rw [if_pos hp] at h
        rcases Option.map_eq_some'.mp h with ⟨k', hk', rfl⟩
        have h1 := ih (l.drop s.length) k' hk'
        have h2 := isPrefixCL_length s l hp
        rw [List.length_drop] at h1
        omega
      · rw [if_neg hp] at h; simp at h
    | star cls =>
      rw [matchLen] at h
      rcases Option.map_eq_some'.mp h with ⟨k', hk', rfl⟩
      have h1 := ih _ k' hk'
      have h2 : (l.takeWhile (inCls cls)).length ≤ l.length :=
        (List.takeWhile_sublist _).length_le
      rw [List.length_drop] at h1
      omega
    | opt c =>
      cases l with
      | nil =>
        rw [matchLen] at h
        have := ih [] k h
        simpa using this
      | cons x t =>
        rw [matchLen] at h
        by_cases hx : x = c
        · rw [if_pos hx] at h
          rcases Option.map_eq_some'.mp h with ⟨k', hk', rfl⟩
          have := ih t k' hk'
          simp
          omega
        · rw [if_neg hx] at h
          have := ih (x :: t) k h
          omega

/-- A pattern beginning with a non-empty literal consumes at least one
character. -/
theorem matchLen_pos : ∀ (p : Pat) (l : List Char) (k : Nat),
    patStartsLit p = true → matchLen p l = some k → 1 ≤ k := by
  intro p l k hp h
  match p, hp with
  | RItem.lit (c :: s) :: rest, _ =>
    rw [matchLen] at h
    by_cases hpre : isPrefixCL (c :: s) l = true
    · rw [if_pos hpre] at h
      rcases Option.map_eq_some'.mp h with ⟨k', -, rfl⟩
      simp
      omega
    · rw [if_neg hpre] at h; simp at h

/-- Dissection of a successful leftmost search: the match position, its
length, and the failure of every earlier position. -/
theorem firstMatchFrom_some (p : Pat) : ∀ (l : List Char) (i s e : Nat),
    firstMatchFrom p l i = some (s, e) →
    ∃ j k, s = i + j ∧ e = i + j + k ∧ j ≤ l.length ∧
      matchLen p (l.drop j) = some k ∧
      ∀ j' < j, matchLen p (l.drop j') = none := by
  intro l
  induction l with
  | nil =>
    intro i s e h
    rw [firstMatchFrom] at h
    rcases hm : matchLen p [] with _ | k
    · rw [hm] at h; simp at h
    · rw [hm] at h
      simp at h
      exact ⟨0, k, by omega, by omega, by simp, by simpa using hm, by omega⟩
  | cons c t ih =>
    intro i s e h
    rw [firstMatchFrom] at h
    rcases hm : matchLen p (c :: t) with _ | k
    · rw [hm] at h
      dsimp only at h
      obtain ⟨j, k, hs, he, hj, hmm, hnone⟩ := ih (i + 1) s e h
      refine ⟨j + 1, k, by omega, by omega, by simpa using hj, by simpa using hmm, ?_⟩
      intro j' hj'
      cases j' with
      | zero => simpa using hm
      | succ j'' =>
        have := hnone j'' (by omega)
        simpa using this
    · rw [hm] at h
      simp at h
      exact ⟨0, k, by omega, by omega, by simp, by simpa using hm, by omega⟩

/-- Converse: a match at `j` with no earlier match pins down the leftmost
search result. -/
theorem firstMatchFrom_of (p : Pat) : ∀ (l : List Char) (i j k : Nat),
    matchLen p (l.drop j) = some k →
    (∀ j' < j, matchLen p (l.drop j') = none) →
    firstMatchFrom p l i = some (i + j, i + j + k) := by
  intro l
  induction l with
  | nil =>
    intro i j k hm hnone
    cases j with
    | zero =>
      rw [firstMatchFrom]
      simp at hm
      rw [hm]
      simp
    | succ j' =>
      have h0 := hnone 0 (by omega)
      simp at h0 hm
      rw [h0] at hm
      exact absurd hm (by simp)
  | cons c t ih =>
    intro i j k hm hnone
    cases j with
    | zero =>
      rw [firstMatchFrom]
      simp at hm
      rw [hm]
      simp
    | succ j' =>
      have h0 := hnone 0 (by omega)
      simp at h0
      rw [firstMatchFrom, h0]
      dsimp only
      have := ih (i + 1) j' k (by simpa using hm)
        (fun j'' hj'' => by simpa using hnone (j'' + 1) (by omega))
      rw [this]
      simp only [Option.some.injEq, Prod.mk.injEq]
      constructor <;> omega

/-- The end-minimisation step never increases the running end. -/
theorem endPosStep_le (cl : List Char) (pat : Pat) (start en : Nat)
    (e2 : String × Pat) : endPosStep cl pat start en e2 ≤ en := by
  unfold endPosStep
  by_cases h : e2.2 ≠ pat
  · rw [if_pos h]
    rcases hm : firstMatch e2.2 (cl.drop start) with _ | m
    · exact le_rfl
    · dsimp only
      by_cases hc : start < start + m.1 ∧ start + m.1 < en
      · rw [if_pos hc]; exact le_of_lt hc.2
      · rw [if_neg hc]
  · rw [if_neg h]

/-- Folding the step never increases the running end. -/
theorem foldl_endPosStep_le (cl : List Char) (pat : Pat) (start : Nat) :
    ∀ (l : List (String × Pat)) (en : Nat),
      List.foldl (endPosStep cl pat start) en l ≤ en := by
  intro l
  induction l with
  | nil => intro en; exact le_rfl
  | cons e2 rest ih =>
    intro en
    exact le_trans (ih (endPosStep cl pat start en e2)) (endPosStep_le cl pat start en e2)

/-- If every other pattern's first suffix match is either immediate (offset
zero, which the loop ignores) or at/after the target position `s2v`, one
step keeps the running end at or above `s2v`. -/
theorem endPosStep_ge (cl : List Char) (pat : Pat) (start s2v en : Nat)
    (e2 : String × Pat)
    (hgood : e2.2 ≠ pat → ∀ q m, firstMatch e2.2 (cl.drop start) = some (q, m) →
      q = 0 ∨ s2v ≤ start + q)
    (hen : s2v ≤ en) : s2v ≤ endPosStep cl pat start en e2 := by
  unfold endPosStep
  by_cases h : e2.2 ≠ pat
  · rw [if_pos h]
    rcases hm : firstMatch e2.2 (cl.drop start) with _ | m
    · exact hen
    · dsimp only
      by_cases hc : start < start + m.1 ∧ start + m.1 < en
      · rw [if_pos hc]
        rcases hgood h m.1 m.2 (by rw [hm]) with h0 | hge
        · omega
        · exact hge
      · rw [if_neg hc]; exact hen
  · rw [if_neg h]; exact hen

/-- Folding over good entries keeps the running end at or above `s2v`. -/
theorem foldl_endPosStep_ge (cl : List Char) (pat : Pat) (start s2v : Nat) :
    ∀ (l : List (String × Pat)) (en : Nat),
      (∀ e2 ∈ l, e2.2 ≠ pat → ∀ q m,
        firstMatch e2.2 (cl.drop start) = some (q, m) → q = 0 ∨ s2v ≤ start + q) →
      s2v ≤ en → s2v ≤ List.foldl (endPosStep cl pat start) en l := by
  intro l
  induction l with
  | nil => intro en _ hen; exact hen
  | cons e2 rest ih =>
    intro en hgood hen
    exact ih (endPosStep cl pat start en e2)
      (fun e he => hgood e (List.mem_cons_of_mem e2 he))
      (endPosStep_ge cl pat start s2v en e2 (hgood e2 (List.mem_cons_self e2 rest)) hen)

/-- With a pattern `patB ≠ pat` whose first suffix match starts exactly at
offset `s2v - start > 0`, and all entries good, the fold lands exactly on
`s2v`. -/
theorem foldl_endPosStep_eq (cl : List Char) (pat patB : Pat)
    (start s2v mB : Nat) (nameB : String)
    (hBpat : patB ≠ pat) (hlt : start < s2v)
    (hBfm : firstMatch patB (cl.drop start) = some (s2v - start, mB)) :
    ∀ (l : List (String × Pat)) (en : Nat),
      (∀ e2 ∈ l, e2.2 ≠ pat → ∀ q m,
        firstMatch e2.2 (cl.drop start) = some (q, m) → q = 0 ∨ s2v ≤ start + q) →
      (nameB, patB) ∈ l → s2v ≤ en →
      List.foldl (endPosStep cl pat start) en l = s2v := by
  intro l
  induction l with
  | nil => intro en _ hmem _; simp at hmem
  | cons e2 rest ih =>
    intro en hgood hmem hen
    rcases List.mem_cons.mp hmem with heq | hmem'
    · have hstep : endPosStep cl pat start en e2 = s2v := by
        rw [← heq]
        unfold endPosStep
        rw [if_pos (by simpa using hBpat), hBfm]
        dsimp only
        have hadd : start + (s2v - start) = s2v := by omega
        by_cases hc : start < start + (s2v - start) ∧ start + (s2v - start) < en
        · rw [if_pos hc, hadd]
        · rw [if_neg hc]
          rw [hadd] at hc
          omega
      rw [List.foldl_cons, hstep]
      have hge := foldl_endPosStep_ge cl pat start s2v rest s2v
        (fun e he => hgood e (List.mem_cons_of_mem e2 he)) le_rfl
      have hle := foldl_endPosStep_le cl pat start rest s2v
      omega
    · rw [List.foldl_cons]
      exact ih (endPosStep cl pat start en e2)
        (fun e he => hgood e (List.mem_cons_of_mem e2 he)) hmem'
        (endPosStep_ge cl pat start s2v en e2 (hgood e2 (List.mem_cons_self e2 rest)) hen)

/-- A `sectionEntry` output is empty or a single pair keyed by the entry's
own name. -/
theorem sectionEntry_shape (contentData : List Char) (e : String × Pat) :
    sectionEntry contentData e = [] ∨
      ∃ v, sectionEntry contentData e = [(e.1, v)] := by
  unfold sectionEntry
  dsimp only
  rcases hm : firstMatch e.2 (contentData.map asciiLower) with _ | se
  · left
    simp only [hm]
  · simp only [hm]
    by_cases hc : 200 < (trimWS ((contentData.drop se.2).take
        (sectionEndPos (contentData.map asciiLower) e.2 se.2 contentData.length - se.2))).length
    · rw [if_pos hc]
      exact Or.inr ⟨_, rfl⟩
    · rw [if_neg hc]
      exact Or.inl rfl

/-- A key absent from the first list is looked up in the second. -/
theorem lookup_append_none {α : Type} [BEq α] (a : α) :
    ∀ (l1 l2 : List (α × String)), List.lookup a l1 = none →
      List.lookup a (l1 ++ l2) = List.lookup a l2 := by
  intro l1
  induction l1 with
  | nil => intro l2 _; rfl
  | cons x xs ih =>
    obtain ⟨k, b⟩ := x
    intro l2 h
    rw [List.lookup_cons] at h
    rw [List.cons_append, List.lookup_cons]
    cases hb : (a == k) with
    | false =>
      rw [hb] at h
      exact ih l2 h
    | true =>
      rw [hb] at h
      simp at h

/-- A key found in the first list survives appending. -/
theorem lookup_append_some {α : Type} [BEq α] (a : α) (v : String) :
    ∀ (l1 l2 : List (α × String)), List.lookup a l1 = some v →
      List.lookup a (l1 ++ l2) = some v := by
  intro l1
  induction l1 with
  | nil => intro l2 h; simp at h
  | cons x xs ih =>
    obtain ⟨k, b⟩ := x
    intro l2 h
    rw [List.lookup_cons] at h
    rw [List.cons_append, List.lookup_cons]
    cases hb : (a == k) with
    | false =>
      rw [hb] at h
      exact ih l2 h
    | true =>
      rw [hb] at h
      exact h

/-- The accumulating fold of `extract_sections` factors through its initial
accumulator. -/
theorem foldl_sections_acc (contentData : List Char) :
    ∀ (l : List (String × Pat)) (init : List (String × String)),
      List.foldl (fun acc e => acc ++ sectionEntry contentData e) init l =
        init ++ List.foldl (fun acc e => acc ++ sectionEntry contentData e) [] l := by
  intro l
  induction l with
  | nil => intro init; simp
  | cons e rest ih =>
    intro init
    rw [List.foldl_cons, List.foldl_cons]
    rw [ih (init ++ sectionEntry contentData e), ih ([] ++ sectionEntry contentData e)]
    simp [List.append_assoc]

/-- Looking up a section name in the accumulated fold: the unique entry with
that name contributes its computed content. -/
theorem outerFold_lookup (contentData : List Char) (nameA : String) (patA : Pat)
    (target : String)
    (hAentry : sectionEntry contentData (nameA, patA) = [(nameA, target)]) :
    ∀ (l : List (String × Pat)) (acc : List (String × String)),
      (nameA, patA) ∈ l →
      (∀ e ∈ l, e.1 = nameA → e = (nameA, patA)) →
      List.lookup nameA acc = none →
      List.lookup nameA
        (List.foldl (fun acc e => acc ++ sectionEntry contentData e) acc l) =
        some target := by
  intro l
  induction l with
  | nil => intro acc hmem _ _; simp at hmem
  | cons e rest ih =>
    intro acc hmem huniq hacc
    by_cases heq : e = (nameA, patA)
    · rw [List.foldl_cons, heq, hAentry,
        foldl_sections_acc contentData rest (acc ++ [(nameA, target)])]
      have hsome : List.lookup nameA (acc ++ [(nameA, target)]) = some target := by
        rw [lookup_append_none nameA acc [(nameA, target)] hacc]
        simp [List.lookup_cons]
      exact lookup_append_some nameA target _ _ hsome
    · have hmem' : (nameA, patA) ∈ rest := by
        rcases List.mem_cons.mp hmem with h | h
        · exact absurd h.symm heq
        · exact h
      rw [List.foldl_cons]
      refine ih (acc ++ sectionEntry contentData e) hmem'
        (fun x hx hxn => huniq x (List.mem_cons_of_mem e hx) hxn) ?_
      have hne : e.1 ≠ nameA := fun hc => heq (huniq e (List.mem_cons_self e rest) hc)
      rcases sectionEntry_shape contentData e with hsh | ⟨v, hsh⟩
      · rw [hsh, List.append_nil]
        exact hacc
      · rw [hsh, lookup_append_none nameA acc _ hacc, List.lookup_cons]
        have hbeq : (nameA == e.1) = false := by
          simp
          exact fun hc => hne hc.symm
        rw [hbeq]
        rfl

/-- Under the boundary conditions of claim C8 the entry computed for
section A is exactly the text from the end of A's marker to the start of
B's marker, stripped. -/
theorem sectionEntry_eq (content : String) (nameA nameB : String) (patA patB : Pat)
    (hBmem : (nameB, patB) ∈ sectionPatterns) (hABpat : patB ≠ patA)
    (s1 e1 s2 e2 : Nat)
    (hfA : firstMatch patA (content.data.map asciiLower) = some (s1, e1))
    (hfB : firstMatch patB (content.data.map asciiLower) = some (s2, e2))
    (horder : e1 < s2)
    (hbetween : ∀ e ∈ sectionPatterns, e.2 ≠ patA →
      ∀ pos, pos < s2 → e1 < pos →
        matchLen e.2 ((content.data.map asciiLower).drop pos) = none)
    (hkeep : 200 < (trimWS ((content.data.drop e1).take (s2 - e1))).length) :
    sectionEntry content.data (nameA, patA) =
      [(nameA, String.mk (trimWS ((content.data.drop e1).take (s2 - e1))))] := by
  have hstarts : ∀ e ∈ sectionPatterns, patStartsLit e.2 = true := by decide
  set cl := content.data.map asciiLower with hcl
  obtain ⟨j, k, hs, he, hj, hmB, hnoneB⟩ := firstMatchFrom_some patB cl 0 s2 e2 hfB
  have hjs : j = s2 := by omega
  rw [hjs] at hmB hnoneB hj
  have hk1 : 1 ≤ k := matchLen_pos patB _ k (hstarts (nameB, patB) hBmem) hmB
  have hkle := matchLen_le patB _ k hmB
  rw [List.length_drop] at hkle
  have hs2len : s2 < cl.length := by omega
  have hcllen : cl.length = content.data.length := List.length_map _ _
  have hBsuffix : firstMatch patB (cl.drop e1) = some (s2 - e1, (s2 - e1) + k) := by
    have hdd : (cl.drop e1).drop (s2 - e1) = cl.drop s2 := by
      rw [List.drop_drop]
      congr 1
      omega
    have h1 : matchLen patB ((cl.drop e1).drop (s2 - e1)) = some k := by
      rw [hdd]; exact hmB
    have h2 : ∀ j' < s2 - e1, matchLen patB ((cl.drop e1).drop j') = none := by
      intro j' hj'
      rw [List.drop_drop]
      exact hnoneB (e1 + j') (by omega)
    have := firstMatchFrom_of patB (cl.drop e1) 0 (s2 - e1) k h1 h2
    simpa using this
  have hgood : ∀ e ∈ sectionPatterns, e.2 ≠ patA → ∀ q m,
      firstMatch e.2 (cl.drop e1) = some (q, m) → q = 0 ∨ s2 ≤ e1 + q := by
    intro e he hne q m hfm
    by_contra hcon
    push_neg at hcon
    obtain ⟨hq0, hqlt⟩ := hcon
    obtain ⟨jq, kq, hjq, -, -, hmq, -⟩ := firstMatchFrom_some e.2 (cl.drop e1) 0 q m hfm
    have hjqq : jq = q := by omega
    rw [hjqq] at hmq
    rw [List.drop_drop] at hmq
    have hnone := hbetween e he hne (e1 + q) (by omega) (by omega)
    rw [hnone] at hmq
    exact absurd hmq (by simp)
  have hend : sectionEndPos cl patA e1 content.data.length = s2 := by
    unfold sectionEndPos
    exact foldl_endPosStep_eq cl patA patB e1 s2 ((s2 - e1) + k) nameB hABpat horder
      hBsuffix sectionPatterns content.data.length hgood hBmem (by omega)
  unfold sectionEntry
  dsimp only
  rw [← hcl]
  simp only [hfA]
  rw [hend]
  rw [if_pos hkeep]

/-- Claim C8 (amended with the strictness condition `e1 < s2`): when
section pattern A's first match ends at `e1`, pattern B's first match
begins strictly later at `s2`, and no other configured marker matches
strictly between them, the content extracted for A (once it clears the
200-character threshold) is exactly the document text from `e1` — right
after A's marker — to `s2` — where B's marker begins — with surrounding
whitespace stripped. -/
theorem C8_section_boundary (content : String) (ft : String)
    (nameA nameB : String) (patA patB : Pat)
    (hA : (nameA, patA) ∈ sectionPatterns) (hBmem : (nameB, patB) ∈ sectionPatterns)
    (hABpat : patB ≠ patA)
    (s1 e1 s2 e2 : Nat)
    (hfA : firstMatch patA (content.data.map asciiLower) = some (s1, e1))
    (hfB : firstMatch patB (content.data.map asciiLower) = some (s2, e2))
    (horder : e1 < s2)
    (hbetween : ∀ e ∈ sectionPatterns, e.2 ≠ patA →
      ∀ pos, pos < s2 → e1 < pos →
        matchLen e.2 ((content.data.map asciiLower).drop pos) = none)
    (hkeep : 200 < (trimWS ((content.data.drop e1).take (s2 - e1))).length) :
    List.lookup nameA (extractSections content ft) =
      some (String.mk (trimWS ((content.data.drop e1).take (s2 - e1)))) := by
  have hnames : (sectionPatterns.map Prod.fst).Nodup := by decide
  have huniq : ∀ e ∈ sectionPatterns, e.1 = nameA → e = (nameA, patA) := by
    intro e he h1
    exact List.inj_on_of_nodup_map hnames he hA h1
  have hAentry := sectionEntry_eq content nameA nameB patA patB hBmem hABpat
    s1 e1 s2 e2 hfA hfB horder hbetween hkeep
  have hlookup := outerFold_lookup content.data nameA patA _ hAentry
    sectionPatterns [] hA huniq rfl
  unfold extractSections
  dsimp only
  have hbase : List.foldl (fun acc e => acc ++ sectionEntry content.data e)
      [] sectionPatterns ≠ [] := by
    intro h0
    rw [h0] at hlookup
    simp at hlookup
  rw [if_neg (fun hcontra => hbase hcontra.1)]
  exact hlookup

/-- Witness for claim C8: in `c8Content` the Risk Factors marker ends at 21
and the MD&A marker starts at 253 with nothing between, so the extracted
Risk Factors content is exactly the stripped slice `[21, 253)`. -/
theorem C8_section_boundary_witness :
    List.lookup "Risk Factors" (extractSections c8Content "10-K") =
      some (String.mk (trimWS ((c8Content.data.drop 21).take (253 - 21)))) :=
  C8_section_boundary c8Content "10-K" "Risk Factors" "MD&A" c8RiskPat c8MdaPat
    (by decide) (by decide) (by decide) 0 21 253 283 (by decide) (by decide)
    (by decide) (by decide) (by decide)

/-- Counterexample to claim C8 as stated: in `c8AdjContent`, pattern A's
first match (ending at 21) precedes pattern B's first match (starting at
21) and no other marker matches between them, yet the content extracted for
A does not end where B's marker begins — the `start < potential_end` guard
ignores a match at offset zero, so A's section swallows B's marker and all
of B's content. -/
theorem C8_counterexample_adjacent_markers :
    firstMatch c8RiskPat (c8AdjContent.data.map asciiLower) = some (0, 21) ∧
    firstMatch c8MdaPat (c8AdjContent.data.map asciiLower) = some (21, 51) ∧
    (∀ e ∈ sectionPatterns, e.2 ≠ c8RiskPat →
      ∀ pos, pos < 21 → 21 < pos →
        matchLen e.2 ((c8AdjContent.data.map asciiLower).drop pos) = none) ∧
    List.lookup "Risk Factors" (extractSections c8AdjContent "10-K") ≠
      some (String.mk (trimWS ((c8AdjContent.data.drop 21).take (21 - 21)))) ∧
    strIn "item 7"
      (lowerS ((List.lookup "Risk Factors"
        (extractSections c8AdjContent "10-K")).getD "")) = true := by
  refine ⟨by decide, by decide, by decide, by decide, by decide⟩

end SecQA
